import Mathlib

/-!
Verification of the recipio-lang transpiler (`src/lib.rs`).

The Rust code is a nom combinator parser producing a `Recipe` AST plus a
`Display` renderer.  We shallowly embed it here: the input is a `List Char`,
a parser is a function `List Char → Option (List Char × α)` (where `none`
models a nom `Err`), and the mutually recursive grammar functions
(`recipe` / `instruction` / `separated_list1`) are realised through a
fuel-indexed bundle so that all definitions compute by structural recursion.
-/

namespace Recipio

abbrev Str := List Char

/-- A nom-style parser: on success, the unconsumed remainder and the value. -/
abbrev P (α : Type) := Str → Option (Str × α)

/-- The character class accepted by nom's `multispace0`:
space, tab, carriage return, line feed. -/
def isNomWs (c : Char) : Bool :=
  c = ' ' || c = '\t' || c = '\r' || c = '\n'

/-- Rust's `char::is_whitespace` (the Unicode `White_Space` property),
used by `str::trim`. -/
def isUniWs (c : Char) : Bool :=
  let n := c.toNat
  (0x09 ≤ n && n ≤ 0x0D) || n = 0x20 || n = 0x85 || n = 0xA0 || n = 0x1680 ||
  (0x2000 ≤ n && n ≤ 0x200A) || n = 0x2028 || n = 0x2029 || n = 0x202F ||
  n = 0x205F || n = 0x3000

/-- Rust `str::trim`: remove leading and trailing Unicode whitespace. -/
def trim (s : Str) : Str :=
  ((s.dropWhile isUniWs).reverse.dropWhile isUniWs).reverse

/-- nom `map`. -/
def pmap (f : α → β) (p : P α) : P β := fun s =>
  (p s).map fun x => (x.1, f x.2)

/-- nom `opt`: on failure, succeed with `none` without consuming input. -/
def popt (p : P α) : P (Option α) := fun s =>
  match p s with
  | some (r, a) => some (r, some a)
  | none => some (s, none)

/-- nom `alt` with two alternatives. -/
def alt2 (p q : P α) : P α := fun s =>
  match p s with
  | some ra => some ra
  | none => q s

/-- nom `preceded`: run both, keep the second value. -/
def precededP (p : P α) (q : P β) : P β := fun s =>
  (p s).bind fun x => q x.1

/-- nom `terminated`: run both, keep the first value. -/
def terminatedP (p : P α) (q : P β) : P α := fun s =>
  (p s).bind fun x => (q x.1).map fun y => (y.1, x.2)

/-- nom `delimited`: run all three, keep the middle value. -/
def delimitedP (p : P α) (q : P β) (r : P γ) : P β := fun s =>
  (p s).bind fun x => (q x.1).bind fun y => (r y.1).map fun z => (z.1, y.2)

/-- nom `pair`. -/
def pairP (p : P α) (q : P β) : P (α × β) := fun s =>
  (p s).bind fun x => (q x.1).map fun y => (y.1, (x.2, y.2))

/-- nom `character::complete::char`. -/
def chr (c : Char) : P Char := fun s =>
  match s with
  | c2 :: t => if c2 = c then some (t, c) else none
  | [] => none

/-- nom `bytes::complete::is_not`: the longest nonempty prefix containing
none of the given characters; fails if that prefix is empty. -/
def isNot (bad : List Char) : P Str := fun s =>
  let t := s.takeWhile (fun c => !(bad.contains c))
  if t.isEmpty then none else some (s.dropWhile (fun c => !(bad.contains c)), t)

/-- nom `multispace0`: zero or more of space/tab/CR/LF; never fails. -/
def multispace0 : P Str := fun s =>
  some (s.dropWhile isNomWs, s.takeWhile isNomWs)

/-- nom `eof`. -/
def eofP : P Unit := fun s =>
  if s.isEmpty then some (s, ()) else none

/-- Rust `fn comment`: `preceded(char('#'), map(opt(is_not("\r\n")), Option::unwrap_or_default))`. -/
def comment : P Str :=
  precededP (chr '#') (pmap (fun o => o.getD []) (popt (isNot ['\r', '\n'])))

/-- Rust `fn skip`: `delimited(multispace0, value((), opt(comment)), multispace0)`. -/
def skip : P Unit :=
  delimitedP multispace0 (pmap (fun _ => ()) (popt comment)) multispace0

/-- The AST.  The Rust `Instruction::AddIngredients` stores a nested
`Recipe { base, instructions }`; to stay within a single nested inductive we
inline that struct's two fields into the constructor. -/
inductive Instruction where
  | addIngredients (base : Str) (instructions : List Instruction) (optional : Bool)
  | process (s : Str)
deriving Repr

/-- Rust `struct Recipe`. -/
structure Recipe where
  base : Str
  instructions : List Instruction
deriving Repr

/-- Constructor `Instruction::AddIngredients { recipe, optional }` as in the source. -/
def addIngredientsOf (r : Recipe) (optional : Bool) : Instruction :=
  .addIngredients r.base r.instructions optional

/-- Exclusion set of the `is_not` used for recipe bases and process steps. -/
def baseExcl : List Char := ['>', ')', '\r', '\n', '#']

/-- Exclusion set of the `is_not` used for inline (unparenthesized) ingredient names. -/
def inlineExcl : List Char := ['>', '\r', '\n', '#']

/-- The fuel-indexed bundle of the mutually recursive grammar functions:
`fn recipe`, `separated_list1` (split into head and loop), and
`fn instruction`.  Each level only calls the bundle at the previous level,
so everything is structurally recursive and computes in the kernel. -/
structure Pack where
  recipe : P Recipe
  instrList : P (List Instruction)
  listLoop : Str → List Instruction → Option (Str × List Instruction)
  instruction : P Instruction

def failPack : Pack :=
  ⟨fun _ => none, fun _ => none, fun _ _ => none, fun _ => none⟩

/-- The separator of `separated_list1`: `preceded(skip, char('>'))`. -/
def sepGt : P Char := precededP skip (chr '>')

def pack : Nat → Pack
  | 0 => failPack
  | f + 1 =>
    { recipe := fun s =>
        pmap
          (fun (p : Str × Option (List Instruction)) =>
            Recipe.mk (trim p.1) (p.2.getD []))
          (pairP
            (precededP skip (isNot baseExcl))
            (popt (precededP sepGt ((pack f).instrList))))
          s
      instrList := fun s =>
        -- nom `separated_list1(sep, item)`: one item, then the loop.
        match (pack f).instruction s with
        | none => none
        | some (s1, i) => (pack f).listLoop s1 [i]
      listLoop := fun i acc =>
        -- nom's loop: try sep; on failure return what we have; after a
        -- successful sep that consumed nothing, error (infinite-loop guard);
        -- then try the item, returning on failure without consuming the sep.
        match sepGt i with
        | none => some (i, acc)
        | some (i1, _) =>
          if i1.length = i.length then none
          else
            match (pack f).instruction i1 with
            | none => some (i, acc)
            | some (i2, o) => (pack f).listLoop i2 (acc ++ [o])
      instruction := fun s =>
        alt2
          (pmap
            (fun (p : Option Char × Recipe) =>
              addIngredientsOf p.2 p.1.isSome)
            (pairP
              (popt (precededP skip (chr '?')))
              (precededP (precededP skip (chr '+'))
                (alt2
                  (delimitedP (precededP skip (chr '(')) ((pack f).recipe)
                    (precededP skip (chr ')')))
                  (pmap (fun (t : Str) => Recipe.mk (trim t) [])
                    (precededP skip (isNot inlineExcl)))))))
          (pmap (fun (t : Str) => Instruction.process (trim t))
            (precededP skip (isNot baseExcl)))
          s }

def recipeF (f : Nat) : P Recipe := (pack f).recipe
def instrListF (f : Nat) : P (List Instruction) := (pack f).instrList
def listLoopF (f : Nat) : Str → List Instruction → Option (Str × List Instruction) :=
  (pack f).listLoop
def instructionF (f : Nat) : P Instruction := (pack f).instruction

/-- Ample fuel for an input: every unit of fuel spent by the bundle
corresponds to consumed input, and `4·|s| + 8` is a safe overapproximation. -/
def fuelFor (s : Str) : Nat := 4 * s.length + 8

/-- Rust `fn parse`: `terminated(delimited(skip, recipe, skip), eof)`. -/
def parse (s : Str) : Option (Str × Recipe) :=
  terminatedP (delimitedP skip (recipeF (fuelFor s)) skip) eofP s

/-- Input helper: a Lean string literal as a character list. -/
def str (s : String) : Str := s.data

/-! The renderer (`impl Display for Recipe` / `impl Display for Instruction`) -/

mutual

/-- Rust `impl Display for Instruction`. -/
def renderInstruction : Instruction → Str
  | .process s => str "「" ++ s ++ str "」"
  | .addIngredients base instrs optional =>
    (if optional then str "お好みで　" else []) ++
    str "「" ++ base ++ str "　を" ++ renderIngredients instrs ++ str "加える」"

/-- The loop `for i in &recipe.instructions { write!(f, "　{}　して", i)?; }`. -/
def renderIngredients : List Instruction → Str
  | [] => []
  | i :: t => str "　" ++ renderInstruction i ++ str "　して" ++ renderIngredients t

end

/-- The loop in `impl Display for Recipe`: for each instruction emit
`"\n{instruction}　をして"`. -/
def renderSteps (l : List Instruction) : Str :=
  match l with
  | [] => []
  | i :: t => str "\n" ++ renderInstruction i ++ str "　をして" ++ renderSteps t

/-- Rust `impl Display for Recipe`: the base, then (if any instructions) `"　に"`,
then the instruction lines, then `"\n完成！"`. -/
def render (r : Recipe) : Str :=
  r.base ++ (if r.instructions.isEmpty then [] else str "　に") ++
  renderSteps r.instructions ++ str "\n完成！"

/-- The fixed terminal phrase of the renderer. -/
def terminalPhrase : Str := str "完成！"

/-! Basic lemmas about `trim` and whitespace -/

/-- The whitespace characters of nom's `multispace0` all have the
Unicode `White_Space` property used by `str::trim`. -/
theorem isUniWs_of_isNomWs {c : Char} (h : isNomWs c = true) : isUniWs c = true := by
  simp only [isNomWs, Bool.or_eq_true, decide_eq_true_eq] at h
  rcases h with ((h | h) | h) | h <;> subst h <;> rfl

theorem trim_nil : trim [] = [] := rfl

/-- Remainder of the input after `multispace0`. -/
def afterWs (s : Str) : Str := s.dropWhile isNomWs

theorem afterWs_idem (s : Str) : afterWs (afterWs s) = afterWs s := by
  unfold afterWs
  have := List.head?_dropWhile_not isNomWs s
  cases h : (s.dropWhile isNomWs).head? with
  | none =>
    have : s.dropWhile isNomWs = [] := by
      cases hd : s.dropWhile isNomWs with
      | nil => rfl
      | cons a t => rw [hd] at h; simp at h
    simp [this]
  | some c =>
    rw [h] at this
    cases hd : s.dropWhile isNomWs with
    | nil => simp
    | cons a t =>
      rw [hd] at h
      simp only [List.head?_cons, Option.some.injEq] at h
      subst h
      rw [List.dropWhile_cons_of_neg (by simp [this])]

/-- Dropping Unicode whitespace from a list that starts with a
non-whitespace character changes nothing. -/
theorem dropWhile_uniWs_eq_self {s : Str}
    (h : ∀ c, s.head? = some c → isUniWs c = false) :
    s.dropWhile isUniWs = s := by
  cases s with
  | nil => rfl
  | cons a t => exact List.dropWhile_cons_of_neg (by simp [h a rfl])

theorem trim_eq_self {s : Str}
    (h1 : ∀ c, s.head? = some c → isUniWs c = false)
    (h2 : ∀ c, s.getLast? = some c → isUniWs c = false) :
    trim s = s := by
  unfold trim
  rw [dropWhile_uniWs_eq_self h1]
  rw [dropWhile_uniWs_eq_self (by intro c hc; rw [List.head?_reverse] at hc; exact h2 c hc)]
  exact List.reverse_reverse s

/-- Leading Unicode whitespace does not affect `trim`. -/
theorem trim_ws_left {w s : Str} (h : ∀ c ∈ w, isUniWs c = true) :
    trim (w ++ s) = trim s := by
  unfold trim
  rw [List.dropWhile_append_of_pos h]

/-- Trailing Unicode whitespace does not affect `trim`. -/
theorem trim_ws_right {s w : Str} (h : ∀ c ∈ w, isUniWs c = true) :
    trim (s ++ w) = trim s := by
  unfold trim
  rw [List.dropWhile_append]
  cases hd : s.dropWhile isUniWs with
  | nil =>
    rw [if_pos (by rfl)]
    have hw : w.dropWhile isUniWs = [] :=
      List.dropWhile_eq_nil_iff.2 (by intro c hc; simp [h c hc])
    rw [hw]
  | cons a t =>
    rw [if_neg (by simp)]
    rw [List.reverse_append, List.dropWhile_append_of_pos
      (by intro c hc; exact h c (List.mem_reverse.1 hc))]

/-- The `trim` of a list starting with a non-whitespace character is nonempty. -/
theorem trim_ne_nil {c : Char} {u : Str} (h : isUniWs c = false) :
    trim (c :: u) ≠ [] := by
  unfold trim
  rw [List.dropWhile_cons_of_neg (by simp [h])]
  intro hcon
  have := congrArg List.length hcon
  simp only [List.length_reverse, List.length_nil] at this
  have hsub : ((c :: u).reverse.dropWhile isUniWs) <:+ (c :: u).reverse :=
    List.dropWhile_suffix _
  have hmem : c ∈ (c :: u).reverse := by simp
  -- every element of the reversed list beyond the dropped whitespace
  -- prefix has been removed, so the whole reversed list is whitespace
  have hall : ∀ d ∈ (c :: u).reverse, isUniWs d = true := by
    have hdw : (c :: u).reverse.dropWhile isUniWs = [] :=
      List.eq_nil_of_length_eq_zero this
    intro d hd
    by_contra hne
    have := List.dropWhile_eq_nil_iff.1 hdw d hd
    simp_all
  have := hall c hmem
  rw [h] at this
  exact Bool.false_ne_true this

theorem trim_head?_false {s : Str} {c : Char} (h : (trim s).head? = some c) :
    isUniWs c = false := by
  unfold trim at h
  rw [List.head?_reverse] at h
  have hsuf : ((s.dropWhile isUniWs).reverse.dropWhile isUniWs) <:+
      (s.dropWhile isUniWs).reverse := List.dropWhile_suffix _
  obtain ⟨u, hu⟩ := hsuf
  have h2 : ((s.dropWhile isUniWs).reverse).getLast? = some c := by
    rw [← hu, List.getLast?_append, h]; rfl
  rw [List.getLast?_reverse] at h2
  have := List.head?_dropWhile_not isUniWs s
  rw [h2] at this
  exact this

theorem trim_getLast?_false {s : Str} {c : Char} (h : (trim s).getLast? = some c) :
    isUniWs c = false := by
  unfold trim at h
  rw [List.getLast?_reverse] at h
  have := List.head?_dropWhile_not isUniWs ((s.dropWhile isUniWs).reverse)
  rw [h] at this
  exact this

theorem trim_idem (s : Str) : trim (trim s) = trim s :=
  trim_eq_self (fun _ h => trim_head?_false h) (fun _ h => trim_getLast?_false h)

/-! Inversion lemmas for the parser combinators -/

theorem pmap_eq_some {f : α → β} {p : P α} {s r : Str} {b : β} :
    pmap f p s = some (r, b) ↔ ∃ a, p s = some (r, a) ∧ b = f a := by
  simp only [pmap, Option.map_eq_some', Prod.exists, Prod.mk.injEq]
  constructor
  · rintro ⟨r', a, hp, rfl, rfl⟩; exact ⟨a, hp, rfl⟩
  · rintro ⟨a, hp, rfl⟩; exact ⟨r, a, hp, rfl, rfl⟩

theorem pmap_eq_none {f : α → β} {p : P α} {s : Str} :
    pmap f p s = none ↔ p s = none := by
  simp [pmap]

theorem popt_eq_some {p : P α} {s r : Str} {o : Option α} :
    popt p s = some (r, o) ↔
      (p s = none ∧ r = s ∧ o = none) ∨ (∃ a, p s = some (r, a) ∧ o = some a) := by
  unfold popt
  cases h : p s with
  | none =>
    constructor
    · intro he
      injection he with he2
      injection he2 with he3 he4
      exact Or.inl ⟨rfl, he3.symm, he4.symm⟩
    · rintro (⟨-, rfl, rfl⟩ | ⟨a, ha, -⟩)
      · rfl
      · exact Option.noConfusion ha
  | some x =>
    cases x with
    | mk r' a =>
      constructor
      · intro he
        injection he with he2
        injection he2 with he3 he4
        exact Or.inr ⟨a, by rw [he3], he4.symm⟩
      · rintro (⟨hn, -, -⟩ | ⟨a', ha', rfl⟩)
        · exact Option.noConfusion hn
        · injection ha' with ha2
          injection ha2 with ha3 ha4
          rw [ha3, ha4]

theorem alt2_eq_some {p q : P α} {s : Str} {x : Str × α} :
    alt2 p q s = some x ↔ p s = some x ∨ (p s = none ∧ q s = some x) := by
  unfold alt2
  cases h : p s with
  | none => simp
  | some y => simp

theorem precededP_eq_some {p : P α} {q : P β} {s : Str} {x : Str × β} :
    precededP p q s = some x ↔ ∃ s1 a, p s = some (s1, a) ∧ q s1 = some x := by
  simp only [precededP, Option.bind_eq_some, Prod.exists]

theorem pairP_eq_some {p : P α} {q : P β} {s r : Str} {a : α} {b : β} :
    pairP p q s = some (r, (a, b)) ↔
      ∃ m, p s = some (m, a) ∧ q m = some (r, b) := by
  simp only [pairP, Option.bind_eq_some, Option.map_eq_some', Prod.exists,
    Prod.mk.injEq]
  constructor
  · rintro ⟨m, a', hp, r', b', hq, rfl, rfl, rfl⟩
    exact ⟨m, hp, hq⟩
  · rintro ⟨m, hp, hq⟩
    exact ⟨m, a, hp, r, b, hq, rfl, rfl, rfl⟩

theorem terminatedP_eq_some {p : P α} {q : P β} {s r : Str} {a : α} :
    terminatedP p q s = some (r, a) ↔
      ∃ m r2 b, p s = some (m, a) ∧ q m = some (r2, b) ∧ r = r2 := by
  simp only [terminatedP, Option.bind_eq_some, Option.map_eq_some', Prod.exists,
    Prod.mk.injEq]
  constructor
  · rintro ⟨m, a', hp, r', b, hq, rfl, rfl⟩
    exact ⟨m, r', b, hp, hq, rfl⟩
  · rintro ⟨m, r2, b, hp, hq, hr⟩
    subst hr
    exact ⟨m, a, hp, r, b, hq, rfl, rfl⟩

theorem delimitedP_eq_some {p : P α} {q : P β} {r : P γ} {s : Str} {x : Str × β} :
    delimitedP p q r s = some x ↔
      ∃ s1 a s2 b s3 c, p s = some (s1, a) ∧ q s1 = some (s2, b) ∧
        r s2 = some (s3, c) ∧ x = (s3, b) := by
  simp only [delimitedP, Option.bind_eq_some, Option.map_eq_some', Prod.exists]
  constructor
  · rintro ⟨s1, a, hp, s2, b, hq, s3, c, hr, rfl⟩
    exact ⟨s1, a, s2, b, s3, c, hp, hq, hr, rfl⟩
  · rintro ⟨s1, a, s2, b, s3, c, hp, hq, hr, rfl⟩
    exact ⟨s1, a, hp, s2, b, hq, s3, c, hr, rfl⟩

theorem chr_eq_some {c : Char} {s r : Str} {a : Char} :
    chr c s = some (r, a) ↔ s = c :: r ∧ a = c := by
  cases s with
  | nil =>
    constructor
    · intro hcon; exact Option.noConfusion hcon
    · rintro ⟨he, -⟩; exact List.noConfusion he
  | cons c2 t =>
    show (if c2 = c then some (t, c) else none) = some (r, a) ↔ _
    by_cases h : c2 = c
    · subst h
      rw [if_pos rfl]
      constructor
      · intro he
        injection he with he2
        injection he2 with h1 h2
        rw [← h1, h2]
        exact ⟨rfl, rfl⟩
      · rintro ⟨he, rfl⟩
        injection he with h1 h2
        rw [h2]
    · rw [if_neg h]
      constructor
      · intro hcon; exact Option.noConfusion hcon
      · rintro ⟨he, -⟩
        injection he with h1 h2
        exact absurd h1 h

theorem takeWhile_eq_nil_imp_dropWhile {p : α → Bool} {l : List α}
    (h : l.takeWhile p = []) : l.dropWhile p = l := by
  cases l with
  | nil => rfl
  | cons a t =>
    rw [List.takeWhile_cons] at h
    by_cases hp : p a
    · rw [if_pos hp] at h; exact List.noConfusion h
    · exact List.dropWhile_cons_of_neg hp

theorem isNot_eq_some {bad : List Char} {s r t : Str} :
    isNot bad s = some (r, t) ↔
      t = s.takeWhile (fun c => !(bad.contains c)) ∧
      r = s.dropWhile (fun c => !(bad.contains c)) ∧ t ≠ [] := by
  unfold isNot
  by_cases h : s.takeWhile (fun c => !(bad.contains c)) = []
  · rw [if_pos (by simpa [List.isEmpty_iff] using h)]
    constructor
    · intro hcon; exact Option.noConfusion hcon
    · rintro ⟨rfl, -, hne⟩; exact absurd h hne
  · rw [if_neg (by simpa [List.isEmpty_iff] using h)]
    simp only [Option.some.injEq, Prod.mk.injEq]
    constructor
    · rintro ⟨rfl, rfl⟩; exact ⟨rfl, rfl, h⟩
    · rintro ⟨rfl, rfl, -⟩; exact ⟨rfl, rfl⟩

/-! Lemmas about `comment` and `skip` -/

theorem multispace0_eq (s : Str) :
    multispace0 s = some (afterWs s, s.takeWhile isNomWs) := rfl

theorem chr_cons_self (c : Char) (t : Str) : chr c (c :: t) = some (t, c) := by
  show (if c = c then some (t, c) else none) = some (t, c)
  rw [if_pos rfl]

theorem chr_cons_ne {c c2 : Char} (t : Str) (h : c2 ≠ c) : chr c (c2 :: t) = none := by
  show (if c2 = c then some (t, c) else none) = none
  rw [if_neg h]

/-- On an input starting with `#`, `comment` consumes up to (exclusive)
the first CR/LF. -/
theorem comment_cons (t : Str) :
    comment ('#' :: t) =
      some (t.dropWhile (fun c => !(List.contains ['\r', '\n'] c)),
            t.takeWhile (fun c => !(List.contains ['\r', '\n'] c))) := by
  unfold comment precededP
  rw [chr_cons_self, Option.some_bind]
  unfold pmap popt isNot
  by_cases h : t.takeWhile (fun c => !(List.contains ['\r', '\n'] c)) = []
  · rw [if_pos (by simpa [List.isEmpty_iff] using h)]
    rw [takeWhile_eq_nil_imp_dropWhile h, h]
    rfl
  · rw [if_neg (by simpa [List.isEmpty_iff] using h)]
    rfl

/-- Lemma: `comment` fails unless the input starts with `#`. -/
theorem comment_eq_none {s : Str} (h : ∀ u, s ≠ '#' :: u) : comment s = none := by
  unfold comment precededP
  cases s with
  | nil => rfl
  | cons c t =>
    rw [chr_cons_ne t (by intro hc; exact h t (by rw [hc]))]
    rfl

/-- What remains after the (at most one) comment consumed by `skip`. -/
def commentRest : Str → Str
  | c :: t =>
    if c = '#' then t.dropWhile (fun c => !(List.contains ['\r', '\n'] c)) else c :: t
  | [] => []

/-- Closed-form evaluation of `skip`: drop whitespace, then at most one
comment, then whitespace again. -/
theorem skip_eq (s : Str) :
    skip s = some (afterWs (commentRest (afterWs s)), ()) := by
  unfold skip delimitedP
  rw [multispace0_eq, Option.some_bind]
  cases hc : afterWs s with
  | nil => rfl
  | cons c t =>
    by_cases hh : c = '#'
    · subst hh
      simp only [pmap, popt]
      rw [comment_cons]
      show some (afterWs _, ()) = _
      simp [commentRest]
    · simp only [pmap, popt]
      rw [comment_eq_none (by intro u hcon; injection hcon with e1 e2; exact hh e1)]
      show some (afterWs (c :: t), ()) = _
      simp only [commentRest]
      rw [if_neg hh]

/-- Lemma: `skip` never fails. -/
theorem skip_total (s : Str) : ∃ r, skip s = some (r, ()) :=
  ⟨_, skip_eq s⟩

theorem commentRest_suffix (s : Str) : commentRest s <:+ s := by
  cases s with
  | nil => exact List.suffix_refl _
  | cons c t =>
    simp only [commentRest]
    by_cases hh : c = '#'
    · rw [if_pos hh]
      exact (List.dropWhile_suffix _).trans ⟨[c], rfl⟩
    · rw [if_neg hh]

/-- The remainder produced by `skip` is a suffix of the input. -/
theorem skip_suffix {s r : Str} {u : Unit} (h : skip s = some (r, u)) : r <:+ s := by
  rw [skip_eq] at h
  injection h with h2
  injection h2 with h3 h4
  rw [← h3]
  calc afterWs (commentRest (afterWs s)) <:+ commentRest (afterWs s) :=
        List.dropWhile_suffix _
    _ <:+ afterWs s := commentRest_suffix _
    _ <:+ s := List.dropWhile_suffix _

/-- When the input after leading whitespace does not start a comment,
`skip` consumes exactly the leading whitespace. -/
theorem skip_eq_no_hash (s : Str) (h : ∀ u, afterWs s ≠ '#' :: u) :
    skip s = some (afterWs s, ()) := by
  rw [skip_eq]
  have : commentRest (afterWs s) = afterWs s := by
    cases hc : afterWs s with
    | nil => rfl
    | cons c t =>
      simp only [commentRest]
      rw [if_neg (by intro hh; subst hh; exact h t hc)]
  rw [this, afterWs_idem]

/-- Lemma: `skip` ignores a leading whitespace character. -/
theorem skip_cons_ws {c : Char} {t : Str} (h : isNomWs c = true) :
    skip (c :: t) = skip t := by
  rw [skip_eq, skip_eq]
  have : afterWs (c :: t) = afterWs t := List.dropWhile_cons_of_pos h
  rw [this]

/-- Lemma: `skip` ignores any leading whitespace run. -/
theorem skip_ws_left {w s : Str} (h : ∀ c ∈ w, isNomWs c = true) :
    skip (w ++ s) = skip s := by
  induction w with
  | nil => rfl
  | cons c t ih =>
    rw [List.cons_append, skip_cons_ws (h c (by simp))]
    exact ih (fun d hd => h d (by simp [hd]))

/-- Computation of `skip` on an input starting with a comment. -/
theorem skip_cons_hash (t : Str) :
    skip ('#' :: t) =
      some (afterWs (t.dropWhile (fun c => !(List.contains ['\r', '\n'] c))), ()) := by
  rw [skip_eq]
  have h1 : afterWs ('#' :: t) = '#' :: t :=
    List.dropWhile_cons_of_neg (by decide)
  rw [h1]
  simp [commentRest]

/-! Unfolding equations for the grammar functions -/

/-- The "add ingredients" arm of `fn instruction` (first `alt` branch). -/
def addBranch (f : Nat) : P Instruction :=
  pmap
    (fun (p : Option Char × Recipe) => addIngredientsOf p.2 p.1.isSome)
    (pairP
      (popt (precededP skip (chr '?')))
      (precededP (precededP skip (chr '+'))
        (alt2
          (delimitedP (precededP skip (chr '(')) (recipeF f)
            (precededP skip (chr ')')))
          (pmap (fun (t : Str) => Recipe.mk (trim t) [])
            (precededP skip (isNot inlineExcl))))))

/-- The bare `Process` arm of `fn instruction` (second `alt` branch). -/
def processBranch : P Instruction :=
  pmap (fun (t : Str) => Instruction.process (trim t))
    (precededP skip (isNot baseExcl))

theorem instructionF_zero (s : Str) : instructionF 0 s = none := rfl

theorem instructionF_succ (f : Nat) :
    instructionF (f + 1) = alt2 (addBranch f) processBranch := rfl

theorem recipeF_zero (s : Str) : recipeF 0 s = none := rfl

theorem recipeF_succ (f : Nat) :
    recipeF (f + 1) = fun s =>
      pmap
        (fun (p : Str × Option (List Instruction)) =>
          Recipe.mk (trim p.1) (p.2.getD []))
        (pairP
          (precededP skip (isNot baseExcl))
          (popt (precededP sepGt (instrListF f))))
        s := rfl

theorem instrListF_zero (s : Str) : instrListF 0 s = none := rfl

theorem instrListF_succ (f : Nat) :
    instrListF (f + 1) = fun s =>
      match instructionF f s with
      | none => none
      | some (s1, i) => listLoopF f s1 [i] := rfl

theorem listLoopF_zero (s : Str) (acc : List Instruction) :
    listLoopF 0 s acc = none := rfl

theorem listLoopF_succ (f : Nat) :
    listLoopF (f + 1) = fun i acc =>
      match sepGt i with
      | none => some (i, acc)
      | some (i1, _) =>
        if i1.length = i.length then none
        else
          match instructionF f i1 with
          | none => some (i, acc)
          | some (i2, o) => listLoopF f i2 (acc ++ [o]) := rfl

/-! C6: parsing consumes the entire input or fails -/

/-- C6: `fn parse` is `terminated(..., eof)`: if the core
`delimited(skip, recipe, skip)` leaves a nonempty remainder, `parse`
returns an error rather than silently truncating. -/
theorem parse_requires_full_consumption (s rest : Str) (r : Recipe)
    (h : delimitedP skip (recipeF (fuelFor s)) skip s = some (rest, r))
    (hne : rest ≠ []) : parse s = none := by
  unfold parse terminatedP
  rw [h, Option.some_bind]
  unfold eofP
  rw [if_neg (by simpa [List.isEmpty_iff] using hne)]
  rfl

theorem parse_requires_full_consumption_witness : parse (str "a)b") = none :=
  parse_requires_full_consumption (str "a)b") (str ")b") ⟨['a'], []⟩ rfl (by decide)

/-! C3: `+` and the process-step fallback -/

/-- C3 counterexample: on input `x > +` the parser succeeds and stores a
`Process` whose text is exactly `"+"` — a stored process text *can* begin
with `'+'` (the add-ingredients arm consumed the `'+'` but then failed,
and the fallback re-read it as text). -/
theorem plus_can_start_process_text :
    parse (str "x > +") = some ([], ⟨['x'], [.process ['+']]⟩) ∧
      (['+'] : Str).head? = some '+' := ⟨rfl, rfl⟩

/-- C3 (amended): the add-ingredients arm is attempted first, and a bare
`Process` step can only arise when that arm fails on the same input; `+` is
not an absolutely reserved sentinel, merely ordered behind the first arm. -/
theorem process_only_if_add_branch_fails (f : Nat) (s rest t : Str)
    (h : instructionF (f + 1) s = some (rest, .process t)) :
    addBranch f s = none ∧ processBranch s = some (rest, .process t) := by
  rw [instructionF_succ] at h
  rw [alt2_eq_some] at h
  rcases h with h | ⟨hn, hq⟩
  · exfalso
    rw [show addBranch f = pmap
      (fun (p : Option Char × Recipe) => addIngredientsOf p.2 p.1.isSome)
      (pairP (popt (precededP skip (chr '?')))
        (precededP (precededP skip (chr '+'))
          (alt2 (delimitedP (precededP skip (chr '(')) (recipeF f)
            (precededP skip (chr ')')))
          (pmap (fun (t : Str) => Recipe.mk (trim t) [])
            (precededP skip (isNot inlineExcl)))))) from rfl] at h
    rw [pmap_eq_some] at h
    obtain ⟨a, -, hcon⟩ := h
    exact Instruction.noConfusion hcon
  · exact ⟨hn, hq⟩

theorem process_only_if_add_branch_fails_witness :
    addBranch 0 (str "a") = none ∧
      processBranch (str "a") = some ([], .process ['a']) :=
  process_only_if_add_branch_fails 0 (str "a") [] ['a'] rfl

/-! C2: the `?` optional marker -/

/-- C2 counterexample: a `?` at an instruction position that is not
followed by `+` does **not** make the parse fail — the bare-process
fallback absorbs it into the step text. -/
theorem question_mark_elsewhere_not_error :
    parse (str "x > ? y") = some ([], ⟨['x'], [.process (str "? y")]⟩) := rfl

/-- C2 (amended): whenever `fn instruction` produces an `AddIngredients`,
its `optional` flag is `true` exactly when the input begins (after `skip`)
with `'?'`; and the concrete scenario `x > ? + (y > z)` parses to the
recipe claimed in the spec. -/
theorem optional_flag_iff_question_mark :
    (∀ f s rest base instrs b m u,
      instructionF f s = some (rest, .addIngredients base instrs b) →
      skip s = some (m, u) →
      (b = true ↔ m.head? = some '?')) ∧
    parse (str "x > ? + (y > z)") =
      some ([], ⟨['x'], [.addIngredients ['y'] [.process ['z']] true]⟩) := by
  constructor
  · intro f s rest base instrs b m u h hskip
    cases f with
    | zero => exact Option.noConfusion h
    | succ f =>
      rw [instructionF_succ, alt2_eq_some] at h
      rcases h with h | ⟨-, h⟩
      · unfold addBranch at h
        rw [pmap_eq_some] at h
        obtain ⟨p, hp, heq⟩ := h
        obtain ⟨o, rec⟩ := p
        unfold addIngredientsOf at heq
        injection heq with e1 e2 e3
        subst e3
        rw [pairP_eq_some] at hp
        obtain ⟨m', h1, -⟩ := hp
        rw [popt_eq_some] at h1
        rcases h1 with ⟨hnone, -, rfl⟩ | ⟨a, hsome, rfl⟩
        · simp only [Option.isSome_none]
          constructor
          · intro hcon; exact Bool.noConfusion hcon
          · intro hq
            unfold precededP at hnone
            rw [hskip, Option.some_bind] at hnone
            cases hm : m with
            | nil => rw [hm] at hq; exact Option.noConfusion hq
            | cons c t =>
              rw [hm] at hq
              injection hq with hq2
              subst hq2
              rw [hm, chr_cons_self] at hnone
              exact Option.noConfusion hnone
        · simp only [Option.isSome_some]
          rw [precededP_eq_some] at hsome
          obtain ⟨s1, u', hsk, hchr⟩ := hsome
          rw [hskip] at hsk
          injection hsk with hsk2
          injection hsk2 with e4 e5
          rw [chr_eq_some] at hchr
          subst e4
          rw [hchr.1]
          simp
      · unfold processBranch at h
        rw [pmap_eq_some] at h
        obtain ⟨a, -, hcon⟩ := h
        exact Instruction.noConfusion hcon
  · rfl

theorem optional_flag_iff_question_mark_witness :
    (false = true ↔ (str "+a").head? = some '?') :=
  optional_flag_iff_question_mark.1 1 (str "+a") [] ['a'] [] false (str "+a") ()
    rfl rfl

/-! C8: single base-text inputs -/

/-- C8: an input containing none of the excluded characters
`>`, `)`, `#`, CR, LF and at least one non-whitespace character parses to a
recipe with no instructions whose base is the trimmed input. -/
theorem single_base_text_parses (s : Str)
    (hex : ∀ c ∈ s, baseExcl.contains c = false)
    (hnw : ∃ c ∈ s, isNomWs c = false) :
    parse s = some ([], ⟨trim s, []⟩) := by
  have hsub : ∀ c ∈ afterWs s, c ∈ s := fun c hc => List.dropWhile_subset _ hc
  have hnh : ∀ u, afterWs s ≠ '#' :: u := by
    intro u hu
    have : ('#' : Char) ∈ s := hsub '#' (by rw [hu]; exact List.mem_cons_self _ _)
    have := hex '#' this
    simp [baseExcl] at this
  have hskip : skip s = some (afterWs s, ()) := skip_eq_no_hash _ hnh
  have hne : afterWs s ≠ [] := by
    intro hcon
    obtain ⟨c, hc, hcw⟩ := hnw
    have := List.dropWhile_eq_nil_iff.1 hcon c hc
    rw [hcw] at this
    exact Bool.noConfusion this
  have htake : (afterWs s).takeWhile (fun c => !(baseExcl.contains c)) = afterWs s :=
    List.takeWhile_eq_self_iff.2 (by
      intro c hc
      rw [hex c (hsub c hc)]
      rfl)
  have hdrop : (afterWs s).dropWhile (fun c => !(baseExcl.contains c)) = [] :=
    List.dropWhile_eq_nil_iff.2 (by
      intro c hc
      rw [hex c (hsub c hc)]
      rfl)
  have hskip2 : skip (afterWs s) = some (afterWs s, ()) := by
    have := skip_eq_no_hash (afterWs s) (by rw [afterWs_idem]; exact hnh)
    rw [afterWs_idem] at this
    exact this
  have hisnot : isNot baseExcl (afterWs s) = some ([], afterWs s) :=
    isNot_eq_some.2 ⟨htake.symm, hdrop.symm, hne⟩
  have htrim : trim (afterWs s) = trim s := by
    conv_rhs => rw [← @List.takeWhile_append_dropWhile _ isNomWs s]
    exact (trim_ws_left (by
      intro c hc
      exact isUniWs_of_isNomWs (List.mem_takeWhile_imp hc))).symm
  obtain ⟨m, hm⟩ : ∃ m, fuelFor s = m + 1 := ⟨4 * s.length + 7, by unfold fuelFor; omega⟩
  have hrec : recipeF (fuelFor s) (afterWs s) = some ([], ⟨trim s, []⟩) := by
    rw [hm, recipeF_succ]
    show pmap _ (pairP (precededP skip (isNot baseExcl))
      (popt (precededP sepGt (instrListF m)))) (afterWs s) = _
    unfold pmap pairP precededP
    rw [hskip2, Option.some_bind, hisnot, Option.some_bind]
    have hopt : popt (precededP sepGt (instrListF m)) [] = some ([], none) := rfl
    show Option.map _ (Option.map _ (popt (precededP sepGt (instrListF m)) [])) = _
    rw [hopt]
    show some ([], Recipe.mk (trim (afterWs s)) []) = _
    rw [htrim]
  unfold parse terminatedP delimitedP
  rw [hskip, Option.some_bind, hrec, Option.some_bind]
  rfl

theorem single_base_text_parses_witness :
    parse (str " my dish ") = some ([], ⟨str "my dish", []⟩) := by
  have := single_base_text_parses (str " my dish ") (by decide) ⟨'m', by decide, by decide⟩
  rw [this]
  rfl

/-! C7: a dangling top-level `>` is a parse error -/

theorem takeWhile_append_stop {p : α → Bool} {t r : List α} {c : α}
    (h : ∀ x ∈ t, p x = true) (hc : p c = false) :
    (t ++ c :: r).takeWhile p = t := by
  rw [List.takeWhile_append_of_pos h,
    List.takeWhile_cons_of_neg (by simp [hc]), List.append_nil]

theorem dropWhile_append_stop {p : α → Bool} {t r : List α} {c : α}
    (h : ∀ x ∈ t, p x = true) (hc : p c = false) :
    (t ++ c :: r).dropWhile p = c :: r := by
  rw [List.dropWhile_append_of_pos h,
    List.dropWhile_cons_of_neg (by simp [hc])]

theorem isNot_eq_none {bad : List Char} {s : Str} :
    isNot bad s = none ↔ s.takeWhile (fun c => !(bad.contains c)) = [] := by
  unfold isNot
  by_cases h : s.takeWhile (fun c => !(bad.contains c)) = []
  · rw [if_pos (by simpa [List.isEmpty_iff] using h)]
    exact iff_of_true rfl h
  · rw [if_neg (by simpa [List.isEmpty_iff] using h)]
    exact iff_of_false (fun hcon => Option.noConfusion hcon) h

/-- Inputs consisting only of whitespace and `#`-comments (each comment
running to the end of its line). -/
inductive Insig : Str → Prop
  | nil : Insig []
  | ws {c : Char} {t : Str} : isNomWs c = true → Insig t → Insig (c :: t)
  | cmt (body t : Str) :
      (∀ c ∈ body, List.contains ['\r', '\n'] c = false) →
      (t = [] ∨ ∃ c t2, t = c :: t2 ∧ List.contains ['\r', '\n'] c = true) →
      Insig t →
      Insig ('#' :: (body ++ t))

/-- After dropping leading whitespace, an insignificant input is empty or
sits at the start of a comment. -/
theorem insig_afterWs {T : Str} (h : Insig T) :
    afterWs T = [] ∨
      ∃ body t, afterWs T = '#' :: (body ++ t) ∧
        (∀ c ∈ body, List.contains ['\r', '\n'] c = false) ∧
        (t = [] ∨ ∃ c t2, t = c :: t2 ∧ List.contains ['\r', '\n'] c = true) ∧
        Insig t := by
  induction h with
  | nil => exact Or.inl rfl
  | ws hc ht ih =>
    rename_i c t
    rw [show afterWs (c :: t) = afterWs t from List.dropWhile_cons_of_pos hc]
    exact ih
  | cmt body t hb htc ht ih =>
    rw [show afterWs ('#' :: (body ++ t)) = '#' :: (body ++ t) from
      List.dropWhile_cons_of_neg (by decide)]
    exact Or.inr ⟨body, t, rfl, hb, htc, ht⟩

/-- On an insignificant input, `skip` leaves either nothing or an input
that still starts with `#` (a second comment, which `skip` cannot eat). -/
theorem insig_skip {T : Str} (h : Insig T) :
    ∃ T2, skip T = some (T2, ()) ∧ (T2 = [] ∨ ∃ u, T2 = '#' :: u) := by
  rw [skip_eq]
  refine ⟨_, rfl, ?_⟩
  rcases insig_afterWs h with hw | ⟨body, t, hw, hb, htc, ht⟩
  · rw [hw]
    exact Or.inl rfl
  · rw [hw]
    have hcr : commentRest ('#' :: (body ++ t)) = t := by
      simp only [commentRest, if_true]
      rw [List.dropWhile_append_of_pos (by intro c hc; rw [hb c hc]; rfl)]
      rcases htc with rfl | ⟨c, t2, rfl, hc⟩
      · rfl
      · refine List.dropWhile_cons_of_neg ?_
        intro hcon
        rw [hc] at hcon
        exact Bool.noConfusion hcon
    rw [hcr]
    rcases insig_afterWs ht with hw2 | ⟨body2, t2, hw2, -, -, -⟩
    · rw [hw2]; exact Or.inl rfl
    · rw [hw2]; exact Or.inr ⟨body2 ++ t2, rfl⟩

/-- Rust `fn instruction` fails on an input made only of whitespace/comments. -/
theorem instruction_fails_insig (f : Nat) {T : Str} (hT : Insig T) :
    instructionF f T = none := by
  obtain ⟨T2, hskip, hT2⟩ := insig_skip hT
  have hchr : ∀ c : Char, c ≠ '#' → chr c T2 = none := by
    intro c hc
    rcases hT2 with rfl | ⟨u, rfl⟩
    · rfl
    · exact chr_cons_ne u (fun h => hc h.symm)
  have hnot : isNot baseExcl T2 = none := by
    rcases hT2 with rfl | ⟨u, rfl⟩
    · rfl
    · exact isNot_eq_none.2 (List.takeWhile_cons_of_neg (by decide))
  cases f with
  | zero => rfl
  | succ f =>
    rw [instructionF_succ]
    have hadd : addBranch f T = none := by
      unfold addBranch
      rw [pmap_eq_none]
      unfold pairP
      have h1 : popt (precededP skip (chr '?')) T = some (T, none) := by
        unfold popt precededP
        rw [hskip, Option.some_bind]
        rw [hchr '?' (by decide)]
      rw [h1, Option.some_bind]
      have h2 : precededP (precededP skip (chr '+'))
          (alt2
            (delimitedP (precededP skip (chr '(')) (recipeF f)
              (precededP skip (chr ')')))
            (pmap (fun (t : Str) => Recipe.mk (trim t) [])
              (precededP skip (isNot inlineExcl)))) T = none := by
        unfold precededP
        rw [hskip, Option.some_bind, hchr '+' (by decide)]
        rfl
      rw [h2]
      rfl
    have hproc : processBranch T = none := by
      unfold processBranch
      rw [pmap_eq_none]
      unfold precededP
      rw [hskip, Option.some_bind, hnot]
    unfold alt2
    rw [hadd, hproc]

/-- Lemma: `separated_list1` fails on an input made only of whitespace/comments. -/
theorem instrList_fails_insig (m : Nat) {T : Str} (hT : Insig T) :
    instrListF m T = none := by
  cases m with
  | zero => rfl
  | succ m =>
    rw [instrListF_succ]
    show (match instructionF m T with
      | none => none
      | some (s1, i) => listLoopF m s1 [i]) = none
    rw [instruction_fails_insig m hT]

/-- C7: an input consisting of a base text, a top-level `>`, and then only
whitespace/comments (or nothing) fails to parse: the instruction list after
`>` needs at least one instruction, and here the `>` is left unconsumed, so
`eof` fails. -/
theorem dangling_gt_is_error (B T : Str)
    (hB : B ≠ [])
    (hBex : ∀ c ∈ B, baseExcl.contains c = false)
    (hBh : ∀ c, B.head? = some c → isNomWs c = false)
    (hT : Insig T) :
    parse (B ++ '>' :: T) = none := by
  obtain ⟨b, B', rfl⟩ : ∃ b B', B = b :: B' := by
    cases B with
    | nil => exact absurd rfl hB
    | cons b B' => exact ⟨b, B', rfl⟩
  have hbw : isNomWs b = false := hBh b rfl
  have hbh : b ≠ '#' := by
    intro hcon
    have := hBex b (by simp)
    rw [hcon] at this
    simp [baseExcl] at this
  have hafter : afterWs ((b :: B') ++ '>' :: T) = (b :: B') ++ '>' :: T := by
    rw [List.cons_append]
    exact List.dropWhile_cons_of_neg (by simp [hbw])
  have hskipS : skip ((b :: B') ++ '>' :: T) =
      some ((b :: B') ++ '>' :: T, ()) := by
    have h1 : ∀ u, afterWs ((b :: B') ++ '>' :: T) ≠ '#' :: u := by
      rw [hafter]
      intro u hu
      rw [List.cons_append] at hu
      injection hu with e1 e2
      exact hbh e1
    have h2 := skip_eq_no_hash _ h1
    rw [hafter] at h2
    exact h2
  have hisnot : isNot baseExcl ((b :: B') ++ '>' :: T) =
      some ('>' :: T, b :: B') := by
    refine isNot_eq_some.2 ⟨?_, ?_, by simp⟩
    · rw [takeWhile_append_stop
        (by intro x hx; rw [hBex x hx]; rfl) (by decide)]
    · rw [dropWhile_append_stop
        (by intro x hx; rw [hBex x hx]; rfl) (by decide)]
  have hskipGt : skip ('>' :: T) = some ('>' :: T, ()) := by
    refine skip_eq_no_hash _ ?_
    rw [show afterWs ('>' :: T) = '>' :: T from
      List.dropWhile_cons_of_neg (by decide)]
    intro u hu
    injection hu with e1 e2
    exact absurd e1 (by decide)
  obtain ⟨m, hm⟩ : ∃ m, fuelFor ((b :: B') ++ '>' :: T) = m + 1 :=
    ⟨4 * ((b :: B') ++ '>' :: T).length + 7, by unfold fuelFor; omega⟩
  have hrec : recipeF (fuelFor ((b :: B') ++ '>' :: T)) ((b :: B') ++ '>' :: T) =
      some ('>' :: T, ⟨trim (b :: B'), []⟩) := by
    rw [hm, recipeF_succ]
    show pmap _ (pairP (precededP skip (isNot baseExcl))
      (popt (precededP sepGt (instrListF m)))) ((b :: B') ++ '>' :: T) = _
    unfold pmap pairP
    have hfirst : precededP skip (isNot baseExcl) ((b :: B') ++ '>' :: T) =
        some ('>' :: T, b :: B') := by
      unfold precededP
      rw [hskipS, Option.some_bind]
      exact hisnot
    rw [hfirst, Option.some_bind]
    have hopt : popt (precededP sepGt (instrListF m)) ('>' :: T) =
        some ('>' :: T, none) := by
      unfold popt
      have hsepGt : sepGt ('>' :: T) = some (T, '>') := by
        unfold sepGt precededP
        rw [hskipGt, Option.some_bind]
        exact chr_cons_self '>' T
      have hsep : precededP sepGt (instrListF m) ('>' :: T) = none := by
        unfold precededP
        rw [hsepGt, Option.some_bind]
        exact instrList_fails_insig m hT
      rw [hsep]
    show Option.map _ (Option.map _
      (popt (precededP sepGt (instrListF m)) ('>' :: T))) = _
    rw [hopt]
    rfl
  unfold parse terminatedP delimitedP
  rw [hskipS, Option.some_bind, hrec, Option.some_bind, hskipGt,
    Option.map_some', Option.some_bind]
  rfl

theorem dangling_gt_is_error_witness : parse (str "aaa > # note") = none :=
  dangling_gt_is_error (str "aaa ") (str " # note")
    (by decide) (by decide) (by decide)
    (.ws (by decide) (.cmt (str " note") []
      (by decide) (Or.inl rfl) .nil))

/-! The stored-slice invariant of the parser (towards C9 and C10) -/

mutual

/-- Predicate: `Q` holds of every text slice stored in an instruction. -/
def instrSlices (Q : Str → Prop) : Instruction → Prop
  | .process s => Q s
  | .addIngredients b instrs _ => Q b ∧ instrsSlices Q instrs

def instrsSlices (Q : Str → Prop) : List Instruction → Prop
  | [] => True
  | i :: t => instrSlices Q i ∧ instrsSlices Q t

end

/-- Predicate: `Q` holds of every text slice stored in a recipe. -/
def recipeSlices (Q : Str → Prop) (r : Recipe) : Prop :=
  Q r.base ∧ instrsSlices Q r.instructions

theorem instrsSlices_append {Q : Str → Prop} :
    ∀ {acc : List Instruction} {o : Instruction},
      instrsSlices Q acc → instrSlices Q o → instrsSlices Q (acc ++ [o])
  | [], o, _, ho => ⟨ho, trivial⟩
  | i :: t, o, h, ho => ⟨h.1, instrsSlices_append h.2 ho⟩

theorem forall_mem_suffix {G : Char → Bool} {t s : Str} (h : t <:+ s)
    (hG : ∀ c ∈ s, G c = true) : ∀ c ∈ t, G c = true :=
  fun c hc => hG c (h.subset hc)

/-- Every remainder of `preceded(skip, char(c))` is a suffix of its input. -/
theorem skip_chr_suffix {c : Char} {s m : Str} {a : Char}
    (h : precededP skip (chr c) s = some (m, a)) : m <:+ s := by
  rw [precededP_eq_some] at h
  obtain ⟨s1, u, hskip, hchr⟩ := h
  rw [chr_eq_some] at hchr
  exact (show m <:+ s1 from hchr.1 ▸ ⟨[c], rfl⟩).trans (skip_suffix hskip)

theorem sepGt_suffix {s m : Str} {ch : Char}
    (h : sepGt s = some (m, ch)) : m <:+ s :=
  skip_chr_suffix h

/-- Inversion of the `preceded(skip, is_not(bad))` pattern: the matched raw
text is nonempty, starts with a non-whitespace character, and consists of
input characters; the remainder is a suffix of the input. -/
theorem skip_isNot_inv {G : Char → Bool} {bad : List Char} {s m raw : Str}
    (hG : ∀ c ∈ s, G c = true)
    (h : precededP skip (isNot bad) s = some (m, raw)) :
    m <:+ s ∧ ∃ c u, raw = c :: u ∧ isNomWs c = false ∧
      (∀ d ∈ c :: u, G d = true) := by
  rw [precededP_eq_some] at h
  obtain ⟨s1, u0, hskip, hnot⟩ := h
  have hsuf1 : s1 <:+ s := skip_suffix hskip
  rw [isNot_eq_some] at hnot
  obtain ⟨htake, hdrop, hne⟩ := hnot
  constructor
  · rw [hdrop]
    exact (List.dropWhile_suffix _).trans hsuf1
  · have hhead : ∀ c, s1.head? = some c → isNomWs c = false := by
      rw [skip_eq] at hskip
      injection hskip with h2
      injection h2 with h3 h4
      intro c hc
      rw [← h3] at hc
      have := List.head?_dropWhile_not isNomWs (commentRest (afterWs s))
      rw [show afterWs (commentRest (afterWs s)) =
        (commentRest (afterWs s)).dropWhile isNomWs from rfl] at hc
      rw [hc] at this
      exact this
    cases hs1 : s1 with
    | nil =>
      rw [hs1] at htake
      simp at htake
      exact absurd htake hne
    | cons a t =>
      rw [hs1, List.takeWhile_cons] at htake
      by_cases hp : (!(bad.contains a)) = true
      · rw [if_pos hp] at htake
        refine ⟨a, t.takeWhile (fun c => !(bad.contains c)), htake, ?_, ?_⟩
        · exact hhead a (by rw [hs1]; rfl)
        · intro d hd
          have : d ∈ s1 := by
            rw [hs1]
            rcases List.mem_cons.1 hd with rfl | hd2
            · exact List.mem_cons_self _ _
            · exact List.mem_cons_of_mem _ (List.takeWhile_subset _ hd2)
          exact forall_mem_suffix hsuf1 hG d this
      · rw [if_neg hp] at htake
        exact absurd htake hne

/-- The master invariant: every slice stored by any of the grammar
functions is the `trim` of a nonempty raw match starting with a
non-whitespace character made of input characters — and the remainder is
always a suffix of the input. -/
theorem parser_slices (Q : Str → Prop) (G : Char → Bool)
    (hQ : ∀ c u, isNomWs c = false → (∀ d ∈ c :: u, G d = true) →
      Q (trim (c :: u))) :
    ∀ f,
      (∀ s rest r, (∀ c ∈ s, G c = true) → recipeF f s = some (rest, r) →
        rest <:+ s ∧ recipeSlices Q r) ∧
      (∀ s rest l, (∀ c ∈ s, G c = true) → instrListF f s = some (rest, l) →
        rest <:+ s ∧ instrsSlices Q l) ∧
      (∀ s acc rest l, (∀ c ∈ s, G c = true) → instrsSlices Q acc →
        listLoopF f s acc = some (rest, l) →
        rest <:+ s ∧ instrsSlices Q l) ∧
      (∀ s rest i, (∀ c ∈ s, G c = true) → instructionF f s = some (rest, i) →
        rest <:+ s ∧ instrSlices Q i) := by
  intro f
  induction f with
  | zero =>
    refine ⟨?_, ?_, ?_, ?_⟩
    · intro s rest r _ h; exact Option.noConfusion h
    · intro s rest l _ h; exact Option.noConfusion h
    · intro s acc rest l _ _ h; exact Option.noConfusion h
    · intro s rest i _ h; exact Option.noConfusion h
  | succ f ih =>
    obtain ⟨ihR, ihL, ihLoop, ihI⟩ := ih
    have stepR : ∀ s rest r, (∀ c ∈ s, G c = true) →
        recipeF (f + 1) s = some (rest, r) →
        rest <:+ s ∧ recipeSlices Q r := by
      intro s rest r hG h
      rw [show recipeF (f + 1) s = pmap
        (fun (p : Str × Option (List Instruction)) =>
          Recipe.mk (trim p.1) (p.2.getD []))
        (pairP (precededP skip (isNot baseExcl))
          (popt (precededP sepGt (instrListF f)))) s from rfl] at h
      rw [pmap_eq_some] at h
      obtain ⟨p, hp, he⟩ := h
      obtain ⟨raw, oinstrs⟩ := p
      rw [pairP_eq_some] at hp
      obtain ⟨m1, h1, h2⟩ := hp
      obtain ⟨hm1suf, c, u, hraw, hcw, hcm⟩ := skip_isNot_inv hG h1
      have hbase : Q (trim raw) := by rw [hraw]; exact hQ c u hcw hcm
      rw [popt_eq_some] at h2
      rcases h2 with ⟨-, rfl, rfl⟩ | ⟨l, hsome, rfl⟩
      · subst he
        exact ⟨hm1suf, hbase, trivial⟩
      · rw [precededP_eq_some] at hsome
        obtain ⟨m2, ch, hsep, hlist⟩ := hsome
        have hm2suf : m2 <:+ s := (sepGt_suffix hsep).trans hm1suf
        obtain ⟨hrestsuf, hl⟩ :=
          ihL m2 rest l (forall_mem_suffix hm2suf hG) hlist
        subst he
        exact ⟨hrestsuf.trans hm2suf, hbase, hl⟩
    have stepI : ∀ s rest i, (∀ c ∈ s, G c = true) →
        instructionF (f + 1) s = some (rest, i) →
        rest <:+ s ∧ instrSlices Q i := by
      intro s rest i hG h
      rw [instructionF_succ, alt2_eq_some] at h
      rcases h with h | ⟨-, h⟩
      · unfold addBranch at h
        rw [pmap_eq_some] at h
        obtain ⟨p, hp, he⟩ := h
        obtain ⟨o, rec⟩ := p
        rw [pairP_eq_some] at hp
        obtain ⟨m1, h1, h2⟩ := hp
        have hm1suf : m1 <:+ s := by
          rw [popt_eq_some] at h1
          rcases h1 with ⟨-, rfl, -⟩ | ⟨a, hsome, -⟩
          · exact List.suffix_refl _
          · exact skip_chr_suffix hsome
        rw [precededP_eq_some] at h2
        obtain ⟨m2, chp, hplus, halt⟩ := h2
        have hm2suf : m2 <:+ s := (skip_chr_suffix hplus).trans hm1suf
        have hGm2 : ∀ c ∈ m2, G c = true := forall_mem_suffix hm2suf hG
        have hrec : rest <:+ m2 ∧ recipeSlices Q rec := by
          rw [alt2_eq_some] at halt
          rcases halt with halt | ⟨-, halt⟩
          · rw [delimitedP_eq_some] at halt
            obtain ⟨s1, a, s2, b, s3, cc, hopen, hrecp, hclose, he2⟩ := halt
            injection he2 with he3 he4
            rw [he3, he4]
            have hs1suf : s1 <:+ m2 := skip_chr_suffix hopen
            obtain ⟨hs2suf, hb⟩ :=
              ihR s1 s2 b (forall_mem_suffix (hs1suf.trans hm2suf) hG) hrecp
            have hs3suf : s3 <:+ s2 := skip_chr_suffix hclose
            exact ⟨(hs3suf.trans hs2suf).trans hs1suf, hb⟩
          · rw [pmap_eq_some] at halt
            obtain ⟨raw, hraw0, he2⟩ := halt
            obtain ⟨hsuf, c, u, hraw, hcw, hcm⟩ := skip_isNot_inv hGm2 hraw0
            subst he2
            refine ⟨hsuf, ?_, trivial⟩
            rw [hraw]
            exact hQ c u hcw hcm
        subst he
        unfold addIngredientsOf
        exact ⟨hrec.1.trans hm2suf, hrec.2⟩
      · unfold processBranch at h
        rw [pmap_eq_some] at h
        obtain ⟨raw, hraw0, he⟩ := h
        obtain ⟨hsuf, c, u, hraw, hcw, hcm⟩ := skip_isNot_inv hG hraw0
        subst he
        refine ⟨hsuf, ?_⟩
        show Q (trim raw)
        rw [hraw]
        exact hQ c u hcw hcm
    have stepLoop : ∀ s acc rest l, (∀ c ∈ s, G c = true) →
        instrsSlices Q acc → listLoopF (f + 1) s acc = some (rest, l) →
        rest <:+ s ∧ instrsSlices Q l := by
      intro s acc rest l hG hacc h
      rw [show listLoopF (f + 1) s acc =
        (match sepGt s with
          | none => some (s, acc)
          | some (i1, _) =>
            if i1.length = s.length then none
            else
              match instructionF f i1 with
              | none => some (s, acc)
              | some (i2, o) => listLoopF f i2 (acc ++ [o])) from rfl] at h
      split at h
      · injection h with h2
        injection h2 with h3 h4
        subst h3
        subst h4
        exact ⟨List.suffix_refl _, hacc⟩
      · rename_i i1 ch hsep
        split at h
        · exact Option.noConfusion h
        · rename_i hlen
          have hi1suf : i1 <:+ s := sepGt_suffix hsep
          split at h
          · injection h with h2
            injection h2 with h3 h4
            subst h3
            subst h4
            exact ⟨List.suffix_refl _, hacc⟩
          · rename_i i2 o hins
            obtain ⟨hi2suf, ho⟩ := ihI i1 i2 o (forall_mem_suffix hi1suf hG) hins
            obtain ⟨hrestsuf, hl⟩ := ihLoop i2 (acc ++ [o]) rest l
              (forall_mem_suffix (hi2suf.trans hi1suf) hG)
              (instrsSlices_append hacc ho) h
            exact ⟨(hrestsuf.trans hi2suf).trans hi1suf, hl⟩
    have stepL : ∀ s rest l, (∀ c ∈ s, G c = true) →
        instrListF (f + 1) s = some (rest, l) →
        rest <:+ s ∧ instrsSlices Q l := by
      intro s rest l hG h
      rw [show instrListF (f + 1) s =
        (match instructionF f s with
          | none => none
          | some (s1, i) => listLoopF f s1 [i]) from rfl] at h
      split at h
      · exact Option.noConfusion h
      · rename_i s1 i heq
        obtain ⟨hs1suf, hi⟩ := ihI s s1 i hG heq
        obtain ⟨hrestsuf, hl⟩ := ihLoop s1 [i] rest l
          (forall_mem_suffix hs1suf hG) ⟨hi, trivial⟩ h
        exact ⟨hrestsuf.trans hs1suf, hl⟩
    exact ⟨stepR, stepL, stepLoop, stepI⟩

/-- Inversion of `fn parse` down to the `fn recipe` call: the recipe is
parsed from a suffix of the input. -/
theorem parse_core_inv {s rest : Str} {r : Recipe}
    (h : parse s = some (rest, r)) :
    ∃ s1 s2, s1 <:+ s ∧ recipeF (fuelFor s) s1 = some (s2, r) := by
  rw [show parse s =
    terminatedP (delimitedP skip (recipeF (fuelFor s)) skip) eofP s from rfl] at h
  rw [terminatedP_eq_some] at h
  obtain ⟨m, r2, bu, hdel, -, -⟩ := h
  rw [delimitedP_eq_some] at hdel
  obtain ⟨s1, a, s2, b2, s3, c, h1, h2, -, hx⟩ := hdel
  injection hx with hx1 hx2
  exact ⟨s1, s2, skip_suffix h1, by rw [hx2]; exact h2⟩

/-! C9: every stored slice is trimmed -/

/-- C9: for every successful parse, every text slice stored anywhere in the
resulting tree (every base and every process text) equals its own `trim`,
i.e. carries no leading or trailing whitespace. -/
theorem stored_slices_are_trimmed (s rest : Str) (r : Recipe)
    (h : parse s = some (rest, r)) :
    recipeSlices (fun t => trim t = t) r := by
  obtain ⟨s1, s2, -, hrec⟩ := parse_core_inv h
  exact ((parser_slices (fun t => trim t = t) (fun _ => true)
    (fun c u _ _ => trim_idem (c :: u)) (fuelFor s)).1
    s1 s2 r (fun _ _ => rfl) hrec).2

theorem stored_slices_are_trimmed_witness :
    recipeSlices (fun t => trim t = t)
      ⟨['x'], [.addIngredients ['y'] [.process ['z']] true]⟩ :=
  stored_slices_are_trimmed (str "x > ? + (y > z)") []
    ⟨['x'], [.addIngredients ['y'] [.process ['z']] true]⟩ rfl

/-! C10: non-emptiness of stored slices -/

/-- C10 counterexample: the input consisting of the single character
U+3000 (ideographic space) is *not* whitespace for nom's `multispace0`, so
`is_not` matches it, but Rust's `str::trim` (Unicode-aware) erases it: the
parse succeeds and stores an **empty** base slice. -/
theorem unicode_ws_gives_empty_base :
    parse (str "　") = some ([], ⟨[], []⟩) := rfl

/-- C10 (amended): when every Unicode-whitespace character of the input is
also parser whitespace (space, tab, CR, LF) — in particular for any ASCII
input — every text slice stored in the resulting tree is non-empty. -/
theorem stored_slices_nonempty (s rest : Str) (r : Recipe)
    (hws : ∀ c ∈ s, isUniWs c = true → isNomWs c = true)
    (h : parse s = some (rest, r)) :
    recipeSlices (fun t => t ≠ []) r := by
  obtain ⟨s1, s2, hsuf, hrec⟩ := parse_core_inv h
  refine ((parser_slices (fun t => t ≠ [])
    (fun c => !(isUniWs c) || isNomWs c) ?_ (fuelFor s)).1 s1 s2 r ?_ hrec).2
  · intro c u hcw hG
    have hc : (!(isUniWs c) || isNomWs c) = true := hG c (List.mem_cons_self _ _)
    rw [hcw, Bool.or_false] at hc
    have : isUniWs c = false := by
      cases hu : isUniWs c
      · rfl
      · rw [hu] at hc; exact Bool.noConfusion hc
    exact trim_ne_nil this
  · intro c hc
    have hcs : c ∈ s := hsuf.subset hc
    cases hu : isUniWs c
    · rw [Bool.not_false, Bool.true_or]
    · rw [hws c hcs hu, Bool.or_true]

theorem stored_slices_nonempty_witness :
    recipeSlices (fun t => t ≠ []) (⟨['x'], [.process ['y']]⟩ : Recipe) :=
  stored_slices_nonempty (str "x > y") [] ⟨['x'], [.process ['y']]⟩
    (by decide) rfl

/-! C4: parenthesized ingredient sources recurse -/

/-- A plain token: nonempty text avoiding the base exclusion set, with
non-whitespace first and last characters. -/
structure PlainTok (X : Str) : Prop where
  ne : X ≠ []
  excl : ∀ c ∈ X, baseExcl.contains c = false
  headNw : ∀ c, X.head? = some c → isUniWs c = false
  lastNw : ∀ c, X.getLast? = some c → isUniWs c = false

theorem PlainTok.headNomWs {X : Str} (h : PlainTok X) :
    ∀ c, X.head? = some c → isNomWs c = false := by
  intro c hc
  cases hnw : isNomWs c
  · rfl
  · have h1 := h.headNw c hc
    rw [isUniWs_of_isNomWs hnw] at h1
    exact h1

/-- Lemma: `skip` is the identity on inputs starting with a visible
non-comment character. -/
theorem skip_cons_id {c : Char} {t : Str} (hw : isNomWs c = false)
    (hh : c ≠ '#') : skip (c :: t) = some (c :: t, ()) := by
  have hafter : afterWs (c :: t) = c :: t :=
    List.dropWhile_cons_of_neg (by simp [hw])
  have h2 := skip_eq_no_hash (c :: t) (by
    rw [hafter]
    intro u hu
    injection hu with e1 e2
    exact hh e1)
  rw [hafter] at h2
  exact h2

/-- The trimmed form of `X ++ " "` is `X` itself, for a plain token. -/
theorem trim_tok_space {X : Str} (h : PlainTok X) : trim (X ++ [' ']) = X := by
  rw [trim_ws_right (by intro c hc; cases hc with
    | head => rfl
    | tail _ hm => cases hm)]
  exact trim_eq_self h.headNw h.lastNw

/-- Lemma: `skip` is the identity at the start of a plain token. -/
theorem skip_tok {X r : Str} (h : PlainTok X) :
    skip (X ++ r) = some (X ++ r, ()) := by
  obtain ⟨x, X', rfl⟩ : ∃ x X', X = x :: X' := by
    cases X with
    | nil => exact absurd rfl h.ne
    | cons x X' => exact ⟨x, X', rfl⟩
  rw [List.cons_append]
  refine skip_cons_id (h.headNomWs x rfl) ?_
  intro hcon
  have := h.excl x (by simp)
  rw [hcon] at this
  simp [baseExcl] at this

/-- Lemma: `is_not(baseExcl)` on `X ++ " " ++ c :: r` (with `c` excluded) matches
`X ++ " "` and leaves `c :: r`. -/
theorem isNot_tok_space {X r : Str} {c : Char} (h : PlainTok X)
    (hc : baseExcl.contains c = true) :
    isNot baseExcl (X ++ ' ' :: c :: r) = some (c :: r, X ++ [' ']) := by
  have hassoc : X ++ ' ' :: c :: r = (X ++ [' ']) ++ c :: r := by
    rw [List.append_assoc]
    rfl
  rw [hassoc]
  refine isNot_eq_some.2 ⟨?_, ?_, by simp⟩
  · rw [takeWhile_append_stop (by
      intro d hd
      rcases List.mem_append.1 hd with hd | hd
      · rw [h.excl d hd]; rfl
      · cases hd with
        | head => rfl
        | tail _ hm => cases hm) (by rw [hc]; rfl)]
  · rw [dropWhile_append_stop (by
      intro d hd
      rcases List.mem_append.1 hd with hd | hd
      · rw [h.excl d hd]; rfl
      · cases hd with
        | head => rfl
        | tail _ hm => cases hm) (by rw [hc]; rfl)]

/-- C4: for all plain text runs `X` and `Y` (the latter not starting with
`?` or `+`), the instruction `+( X > Y )` parses to an `AddIngredients`
whose nested recipe has base `X` and the single instruction `Process Y`;
and parenthesized sources recurse, e.g. `+( a > +( b > c ) )` yields a
doubly nested structure. -/
theorem paren_ingredient_recurses :
    (∀ j X Y, PlainTok X → PlainTok Y →
      (∀ c, Y.head? = some c → c ≠ '?' ∧ c ≠ '+') →
      instructionF (j + 4) (str "+( " ++ X ++ str " > " ++ Y ++ str " )") =
        some ([], .addIngredients X [.process Y] false)) ∧
    instructionF 8 (str "+( a > +( b > c ) )") =
      some ([], .addIngredients ['a']
        [.addIngredients ['b'] [.process ['c']] false] false) := by
  constructor
  · intro j X Y hX hY hYq
    obtain ⟨y, Y', rfl⟩ : ∃ y Y', Y = y :: Y' := by
      cases Y with
      | nil => exact absurd rfl hY.ne
      | cons y Y' => exact ⟨y, Y', rfl⟩
    have hyq : y ≠ '?' := (hYq y rfl).1
    have hyp : y ≠ '+' := (hYq y rfl).2
    have hinput : str "+( " ++ X ++ str " > " ++ (y :: Y') ++ str " )" =
        '+' :: '(' :: ' ' ::
          (X ++ ' ' :: '>' :: ' ' :: ((y :: Y') ++ ' ' :: ')' :: [])) := by
      simp [str, List.append_assoc]
    rw [hinput]
    -- abbreviations for the successive remainders
    obtain ⟨sY, hsYdef⟩ : ∃ sY, sY = (y :: Y') ++ ' ' :: ')' :: [] := ⟨_, rfl⟩
    obtain ⟨s2, hs2def⟩ : ∃ s2, s2 = X ++ ' ' :: '>' :: ' ' :: sY := ⟨_, rfl⟩
    rw [show X ++ ' ' :: '>' :: ' ' :: ((y :: Y') ++ ' ' :: ')' :: []) = s2 from
      by rw [hs2def, hsYdef]]
    -- the inner instruction on " Y )"
    have hskipInY : skip (' ' :: sY) = skip sY := skip_cons_ws (by decide)
    have hskipY : skip sY = some (sY, ()) := by
      rw [hsYdef]; exact skip_tok hY
    have hisnotY : isNot baseExcl sY = some ([')'], (y :: Y') ++ [' ']) := by
      rw [hsYdef]; exact isNot_tok_space hY (by decide)
    have haddY : addBranch j (' ' :: sY) = none := by
      unfold addBranch
      rw [pmap_eq_none]
      unfold pairP
      have h1 : popt (precededP skip (chr '?')) (' ' :: sY) =
          some (' ' :: sY, none) := by
        unfold popt precededP
        rw [hskipInY, hskipY, Option.some_bind, hsYdef, List.cons_append,
          chr_cons_ne _ hyq]
      rw [h1, Option.some_bind]
      have h2 : precededP (precededP skip (chr '+'))
          (alt2
            (delimitedP (precededP skip (chr '(')) (recipeF j)
              (precededP skip (chr ')')))
            (pmap (fun (t : Str) => Recipe.mk (trim t) [])
              (precededP skip (isNot inlineExcl)))) (' ' :: sY) = none := by
        unfold precededP
        rw [hskipInY, hskipY, Option.some_bind, hsYdef, List.cons_append,
          chr_cons_ne _ hyp]
        rfl
      rw [h2]
      rfl
    have hprocY : processBranch (' ' :: sY) =
        some ([')'], .process (y :: Y')) := by
      unfold processBranch
      rw [pmap_eq_some]
      refine ⟨(y :: Y') ++ [' '], ?_, ?_⟩
      · unfold precededP
        rw [hskipInY, hskipY, Option.some_bind]
        exact hisnotY
      · rw [trim_tok_space hY]
    have hinsY : instructionF (j + 1) (' ' :: sY) =
        some ([')'], .process (y :: Y')) := by
      rw [instructionF_succ]
      unfold alt2
      rw [haddY, hprocY]
    -- the instruction list after the inner '>'
    have hlist : instrListF (j + 2) (' ' :: sY) =
        some ([')'], [.process (y :: Y')]) := by
      rw [show instrListF (j + 2) (' ' :: sY) =
        (match instructionF (j + 1) (' ' :: sY) with
          | none => none
          | some (s1, i) => listLoopF (j + 1) s1 [i]) from rfl]
      rw [hinsY]
      show listLoopF (j + 1) [')'] [.process (y :: Y')] = _
      rw [show listLoopF (j + 1) [')'] [.process (y :: Y')] =
        (match sepGt [')'] with
          | none => some ([')'], [Instruction.process (y :: Y')])
          | some (i1, _) =>
            if i1.length = [')'].length then none
            else
              match instructionF j i1 with
              | none => some ([')'], [Instruction.process (y :: Y')])
              | some (i2, o) =>
                listLoopF j i2 ([Instruction.process (y :: Y')] ++ [o]))
        from rfl]
      rw [show sepGt [')'] = none from rfl]
    -- the inner recipe " X > Y )"
    have hskipS2 : skip s2 = some (s2, ()) := by
      rw [hs2def]; exact skip_tok hX
    have hisnotX : isNot baseExcl s2 = some ('>' :: ' ' :: sY, X ++ [' ']) := by
      rw [hs2def]
      exact isNot_tok_space hX (by decide)
    have hskipGtT : skip ('>' :: ' ' :: sY) = some ('>' :: ' ' :: sY, ()) :=
      skip_cons_id (by decide) (by decide)
    have hrec : recipeF (j + 3) (' ' :: s2) =
        some ([')'], ⟨X, [.process (y :: Y')]⟩) := by
      rw [show recipeF (j + 3) (' ' :: s2) = pmap
        (fun (p : Str × Option (List Instruction)) =>
          Recipe.mk (trim p.1) (p.2.getD []))
        (pairP (precededP skip (isNot baseExcl))
          (popt (precededP sepGt (instrListF (j + 2))))) (' ' :: s2) from rfl]
      rw [pmap_eq_some]
      refine ⟨(X ++ [' '], some [.process (y :: Y')]), ?_, ?_⟩
      · rw [pairP_eq_some]
        refine ⟨'>' :: ' ' :: sY, ?_, ?_⟩
        · unfold precededP
          rw [show skip (' ' :: s2) = skip s2 from skip_cons_ws (by decide),
            hskipS2, Option.some_bind]
          exact hisnotX
        · rw [popt_eq_some]
          refine Or.inr ⟨[.process (y :: Y')], ?_, rfl⟩
          rw [precededP_eq_some]
          refine ⟨' ' :: sY, '>', ?_, hlist⟩
          unfold sepGt precededP
          rw [hskipGtT, Option.some_bind]
          exact chr_cons_self '>' (' ' :: sY)
      · show Recipe.mk X [.process (y :: Y')] =
          Recipe.mk (trim (X ++ [' '])) [.process (y :: Y')]
        rw [trim_tok_space hX]
    -- the outer instruction
    have hskipS : skip ('+' :: '(' :: ' ' :: s2) =
        some ('+' :: '(' :: ' ' :: s2, ()) :=
      skip_cons_id (by decide) (by decide)
    have hskipS0 : skip ('(' :: ' ' :: s2) = some ('(' :: ' ' :: s2, ()) :=
      skip_cons_id (by decide) (by decide)
    have haddTop : addBranch (j + 3) ('+' :: '(' :: ' ' :: s2) =
        some ([], .addIngredients X [.process (y :: Y')] false) := by
      unfold addBranch
      rw [pmap_eq_some]
      refine ⟨(none, ⟨X, [.process (y :: Y')]⟩), ?_, rfl⟩
      rw [pairP_eq_some]
      refine ⟨'+' :: '(' :: ' ' :: s2, ?_, ?_⟩
      · rw [popt_eq_some]
        refine Or.inl ⟨?_, rfl, rfl⟩
        unfold precededP
        rw [hskipS, Option.some_bind]
        exact chr_cons_ne _ (by decide)
      · rw [precededP_eq_some]
        refine ⟨'(' :: ' ' :: s2, '+', ?_, ?_⟩
        · rw [precededP_eq_some]
          exact ⟨'+' :: '(' :: ' ' :: s2, (), hskipS,
            chr_cons_self '+' ('(' :: ' ' :: s2)⟩
        · rw [alt2_eq_some]
          left
          rw [delimitedP_eq_some]
          refine ⟨' ' :: s2, '(', [')'], ⟨X, [.process (y :: Y')]⟩, [], ')',
            ?_, hrec, ?_, rfl⟩
          · rw [precededP_eq_some]
            exact ⟨'(' :: ' ' :: s2, (), hskipS0,
              chr_cons_self '(' (' ' :: s2)⟩
          · rw [precededP_eq_some]
            exact ⟨[')'], (), rfl, rfl⟩
    rw [instructionF_succ]
    unfold alt2
    rw [haddTop]
  · rfl

theorem paren_ingredient_recurses_witness :
    instructionF 4 (str "+( spam > fry )") =
      some ([], .addIngredients (str "spam") [.process (str "fry")] false) :=
  paren_ingredient_recurses.1 0 (str "spam") (str "fry")
    ⟨by decide, by decide, by decide, by decide⟩
    ⟨by decide, by decide, by decide, by decide⟩
    (by decide)

/-! C5: the terminal phrase in rendered output -/


/-- Number of occurrences of `pat` (as a contiguous substring) in `s`. -/
def countOcc (pat : Str) : Str → Nat
  | [] => 0
  | c :: t => (if pat.isPrefixOf (c :: t) then 1 else 0) + countOcc pat t

example : countOcc terminalPhrase (str "x\n完成！") = 1 := by decide

/-- Appending the phrase does not create an occurrence overlapping a
nonempty prefix: the phrase has no self-overlap. -/
theorem phrase_isPrefixOf_append (u : Str) (hu : u ≠ []) :
    terminalPhrase.isPrefixOf (u ++ terminalPhrase) =
      terminalPhrase.isPrefixOf u := by
  match u with
  | [a] =>
    show List.isPrefixOf ['完', '成', '！'] [a, '完', '成', '！'] =
      List.isPrefixOf ['完', '成', '！'] [a]
    simp [List.isPrefixOf]
  | [a, b] =>
    show List.isPrefixOf ['完', '成', '！'] [a, b, '完', '成', '！'] =
      List.isPrefixOf ['完', '成', '！'] [a, b]
    simp [List.isPrefixOf]
  | a :: b :: c :: u' =>
    show List.isPrefixOf ['完', '成', '！'] (a :: b :: c :: (u' ++ _)) =
      List.isPrefixOf ['完', '成', '！'] (a :: b :: c :: u')
    simp [List.isPrefixOf]



theorem countOcc_append_self (p : Str) :
    countOcc terminalPhrase (p ++ terminalPhrase) =
      countOcc terminalPhrase p + 1 := by
  induction p with
  | nil => decide
  | cons c t ih =>
    show (if terminalPhrase.isPrefixOf ((c :: t) ++ terminalPhrase) then 1 else 0) +
      countOcc terminalPhrase (t ++ terminalPhrase) = _
    rw [phrase_isPrefixOf_append (c :: t) (List.cons_ne_nil c t), ih]
    show _ = (if terminalPhrase.isPrefixOf (c :: t) then 1 else 0) +
      countOcc terminalPhrase t + 1
    omega

/-- An occurrence of the phrase at the head of `u ++ q` either lies in `u`
or forces the head of `q` to be one of the phrase's later characters. -/
theorem phrase_prefix_append_cases {u q : Str} (hu : u ≠ [])
    (hpre : terminalPhrase.isPrefixOf (u ++ q) = true) :
    terminalPhrase.isPrefixOf u = true ∨
      (∃ c, q.head? = some c ∧ (c = '成' ∨ c = '！')) := by
  match u with
  | [a] =>
    cases q with
    | nil => simp [terminalPhrase, str, List.isPrefixOf] at hpre
    | cons d q' =>
      right
      refine ⟨d, rfl, Or.inl ?_⟩
      revert hpre
      show List.isPrefixOf ['完', '成', '！'] (a :: d :: q') = true → d = '成'
      simp [List.isPrefixOf]
      intro h1 h2 h3
      exact h2.symm
  | [a, b] =>
    cases q with
    | nil => simp [terminalPhrase, str, List.isPrefixOf] at hpre
    | cons d q' =>
      right
      refine ⟨d, rfl, Or.inr ?_⟩
      revert hpre
      show List.isPrefixOf ['完', '成', '！'] (a :: b :: d :: q') = true → d = '！'
      simp [List.isPrefixOf]
      intro h1 h2 h3
      exact h3.symm
  | a :: b :: c :: u' =>
    left
    revert hpre
    show List.isPrefixOf ['完', '成', '！'] (a :: b :: c :: (u' ++ q)) = true →
      List.isPrefixOf ['完', '成', '！'] (a :: b :: c :: u') = true
    simp [List.isPrefixOf]

/-- Occurrence counting distributes over append when the right part does
not begin with a later phrase character (no cross-boundary occurrence). -/
theorem countOcc_append_of_head {p q : Str}
    (hp : countOcc terminalPhrase p = 0)
    (hq : countOcc terminalPhrase q = 0)
    (hqh : ∀ c, q.head? = some c → c ≠ '成' ∧ c ≠ '！') :
    countOcc terminalPhrase (p ++ q) = 0 := by
  induction p with
  | nil => exact hq
  | cons c t ih =>
    have hhead : terminalPhrase.isPrefixOf (c :: t) = false ∧
        countOcc terminalPhrase t = 0 := by
      revert hp
      show (if terminalPhrase.isPrefixOf (c :: t) then 1 else 0) +
        countOcc terminalPhrase t = 0 → _
      intro hp
      constructor
      · by_cases hb : terminalPhrase.isPrefixOf (c :: t) = true
        · rw [hb] at hp; simp at hp
        · exact Bool.eq_false_iff.2 hb
      · omega
    show (if terminalPhrase.isPrefixOf ((c :: t) ++ q) then 1 else 0) +
      countOcc terminalPhrase (t ++ q) = 0
    rw [ih hhead.2]
    have : terminalPhrase.isPrefixOf ((c :: t) ++ q) = false := by
      by_cases hb : terminalPhrase.isPrefixOf ((c :: t) ++ q) = true
      · rcases phrase_prefix_append_cases (List.cons_ne_nil c t) hb with h1 | ⟨d, hd, hor⟩
        · rw [h1] at hhead; exact absurd hhead.1 (by simp)
        · rcases hor with rfl | rfl
          · exact absurd rfl (hqh _ hd).1
          · exact absurd rfl (hqh _ hd).2
      · exact Bool.eq_false_iff.2 hb
    rw [this]
    rfl

/-- Occurrence counting distributes over append when the left part does
not end with an early phrase character. -/
theorem countOcc_append_of_last {p q : Str}
    (hp : countOcc terminalPhrase p = 0)
    (hq : countOcc terminalPhrase q = 0)
    (hpl : ∀ c, p.getLast? = some c → c ≠ '完' ∧ c ≠ '成') :
    countOcc terminalPhrase (p ++ q) = 0 := by
  induction p with
  | nil => exact hq
  | cons c t ih =>
    have hhead : terminalPhrase.isPrefixOf (c :: t) = false ∧
        countOcc terminalPhrase t = 0 := by
      revert hp
      show (if terminalPhrase.isPrefixOf (c :: t) then 1 else 0) +
        countOcc terminalPhrase t = 0 → _
      intro hp
      constructor
      · by_cases hb : terminalPhrase.isPrefixOf (c :: t) = true
        · rw [hb] at hp; simp at hp
        · exact Bool.eq_false_iff.2 hb
      · omega
    have hlast : ∀ d, t.getLast? = some d → d ≠ '完' ∧ d ≠ '成' := by
      intro d hd
      refine hpl d ?_
      cases t with
      | nil => exact Option.noConfusion hd
      | cons e t' => rw [List.getLast?_cons_cons]; exact hd
    show (if terminalPhrase.isPrefixOf ((c :: t) ++ q) then 1 else 0) +
      countOcc terminalPhrase (t ++ q) = 0
    rw [ih hhead.2 hlast]
    have hfalse : terminalPhrase.isPrefixOf ((c :: t) ++ q) = false := by
      match t with
      | [] =>
        have hc := hpl c (by rfl)
        by_cases hb : terminalPhrase.isPrefixOf ([c] ++ q) = true
        · exfalso
          revert hb
          show List.isPrefixOf ['完', '成', '！'] (c :: q) = true → False
          simp [List.isPrefixOf]
          intro h1 h2
          exact hc.1 h1.symm
        · exact Bool.eq_false_iff.2 hb
      | [x] =>
        have hx := hpl x (by rw [List.getLast?_cons_cons]; rfl)
        by_cases hb : terminalPhrase.isPrefixOf ([c, x] ++ q) = true
        · exfalso
          revert hb
          show List.isPrefixOf ['完', '成', '！'] (c :: x :: q) = true → False
          simp [List.isPrefixOf]
          intro h1 h2 h3
          exact hx.2 h2.symm
        · exact Bool.eq_false_iff.2 hb
      | x :: y :: t' =>
        have : terminalPhrase.isPrefixOf ((c :: x :: y :: t') ++ q) =
            terminalPhrase.isPrefixOf (c :: x :: y :: t') := by
          show List.isPrefixOf ['完', '成', '！'] (c :: x :: y :: (t' ++ q)) =
            List.isPrefixOf ['完', '成', '！'] (c :: x :: y :: t')
          simp [List.isPrefixOf]
        rw [this]
        exact hhead.1
    rw [hfalse]
    rfl



theorem lastCond (p : Str) {g : Char} (h : p.getLast? = some g)
    (h1 : g ≠ '完') (h2 : g ≠ '成') :
    ∀ c, p.getLast? = some c → c ≠ '完' ∧ c ≠ '成' := by
  intro c hc
  rw [h] at hc
  injection hc with e
  subst e
  exact ⟨h1, h2⟩

theorem headCond (q : Str) {g : Char} (h : q.head? = some g)
    (h1 : g ≠ '成') (h2 : g ≠ '！') :
    ∀ c, q.head? = some c → c ≠ '成' ∧ c ≠ '！' := by
  intro c hc
  rw [h] at hc
  injection hc with e
  subst e
  exact ⟨h1, h2⟩

theorem head?_of_append {q r : Str} {g : Char} (h : q.head? = some g) :
    (q ++ r).head? = some g := by
  rw [List.head?_append, h]
  rfl

theorem head?_renderIngredients_cons (i : Instruction) (t : List Instruction) :
    (renderIngredients (i :: t)).head? = some '　' := by
  show (str "　" ++ renderInstruction i ++ str "　して" ++
    renderIngredients t).head? = some '　'
  exact head?_of_append (head?_of_append (head?_of_append rfl))

theorem head?_renderSteps_cons (i : Instruction) (t : List Instruction) :
    (renderSteps (i :: t)).head? = some '\n' := by
  show (str "\n" ++ renderInstruction i ++ str "　をして" ++
    renderSteps t).head? = some '\n'
  exact head?_of_append (head?_of_append (head?_of_append rfl))

/-- No occurrence of the terminal phrase inside a rendered instruction whose
stored slices are phrase-free. -/
theorem renderInstruction_no_phrase_aux : ∀ n : Nat,
    (∀ i : Instruction, sizeOf i ≤ n →
      instrSlices (fun t => countOcc terminalPhrase t = 0) i →
      countOcc terminalPhrase (renderInstruction i) = 0) ∧
    (∀ l : List Instruction, sizeOf l ≤ n →
      instrsSlices (fun t => countOcc terminalPhrase t = 0) l →
      countOcc terminalPhrase (renderIngredients l) = 0) := by
  intro n
  induction n with
  | zero =>
    constructor
    · intro i hsz _
      exfalso
      cases i <;> simp at hsz <;> omega
    · intro l hsz _
      exfalso
      cases l <;> simp at hsz <;> omega
  | succ n ih =>
    constructor
    · intro i hsz hsl
      cases i with
      | process s =>
        show countOcc terminalPhrase (str "「" ++ s ++ str "」") = 0
        have h1 : countOcc terminalPhrase (str "「" ++ s) = 0 :=
          countOcc_append_of_last (by decide) hsl
            (lastCond (str "「") rfl (by decide) (by decide))
        exact countOcc_append_of_head h1 (by decide)
          (headCond (str "」") rfl (by decide) (by decide))
      | addIngredients b instrs opt =>
        have hszl : sizeOf instrs ≤ n := by
          simp at hsz
          omega
        show countOcc terminalPhrase
          ((if opt then str "お好みで　" else []) ++ str "「" ++ b ++ str "　を" ++
            renderIngredients instrs ++ str "加える」") = 0
        have h1 : countOcc terminalPhrase
            ((if opt then str "お好みで　" else []) ++ str "「") = 0 := by
          cases opt <;> decide
        have hlast1 : ((if opt then str "お好みで　" else []) ++ str "「").getLast? =
            some '「' := by
          cases opt <;> decide
        have h2 : countOcc terminalPhrase
            ((if opt then str "お好みで　" else []) ++ str "「" ++ b) = 0 :=
          countOcc_append_of_last h1 hsl.1
            (lastCond _ hlast1 (by decide) (by decide))
        have h3 : countOcc terminalPhrase
            ((if opt then str "お好みで　" else []) ++ str "「" ++ b ++ str "　を") = 0 :=
          countOcc_append_of_head h2 (by decide)
            (headCond (str "　を") rfl (by decide) (by decide))
        have h4 : countOcc terminalPhrase
            ((if opt then str "お好みで　" else []) ++ str "「" ++ b ++ str "　を" ++
              renderIngredients instrs) = 0 := by
          cases instrs with
          | nil =>
            show countOcc terminalPhrase (_ ++ renderIngredients []) = 0
            rw [show renderIngredients [] = [] from rfl, List.append_nil]
            exact h3
          | cons i2 t2 =>
            exact countOcc_append_of_head h3
              (ih.2 (i2 :: t2) hszl hsl.2)
              (headCond _ (head?_renderIngredients_cons i2 t2)
                (by decide) (by decide))
        exact countOcc_append_of_head h4 (by decide)
          (headCond (str "加える」") rfl (by decide) (by decide))
    · intro l hsz hsl
      cases l with
      | nil => rfl
      | cons i t =>
        have hszi : sizeOf i ≤ n := by
          simp at hsz
          omega
        have hszt : sizeOf t ≤ n := by
          simp at hsz
          omega
        show countOcc terminalPhrase
          (str "　" ++ renderInstruction i ++ str "　して" ++
            renderIngredients t) = 0
        have h1 : countOcc terminalPhrase (str "　" ++ renderInstruction i) = 0 :=
          countOcc_append_of_last (by decide) (ih.1 i hszi hsl.1)
            (lastCond (str "　") rfl (by decide) (by decide))
        have h2 : countOcc terminalPhrase
            (str "　" ++ renderInstruction i ++ str "　して") = 0 :=
          countOcc_append_of_head h1 (by decide)
            (headCond (str "　して") rfl (by decide) (by decide))
        cases t with
        | nil =>
          show countOcc terminalPhrase (_ ++ renderIngredients []) = 0
          rw [show renderIngredients [] = [] from rfl, List.append_nil]
          exact h2
        | cons i2 t2 =>
          exact countOcc_append_of_head h2 (ih.2 (i2 :: t2) hszt hsl.2)
            (headCond _ (head?_renderIngredients_cons i2 t2)
              (by decide) (by decide))

theorem renderSteps_no_phrase :
    ∀ l : List Instruction,
      instrsSlices (fun t => countOcc terminalPhrase t = 0) l →
      countOcc terminalPhrase (renderSteps l) = 0 := by
  intro l
  induction l with
  | nil => intro _; rfl
  | cons i t ih =>
    intro hsl
    show countOcc terminalPhrase
      (str "\n" ++ renderInstruction i ++ str "　をして" ++ renderSteps t) = 0
    have h1 : countOcc terminalPhrase (str "\n" ++ renderInstruction i) = 0 :=
      countOcc_append_of_last (by decide)
        ((renderInstruction_no_phrase_aux (sizeOf i)).1 i (le_refl _) hsl.1)
        (lastCond (str "\n") rfl (by decide) (by decide))
    have h2 : countOcc terminalPhrase
        (str "\n" ++ renderInstruction i ++ str "　をして") = 0 :=
      countOcc_append_of_head h1 (by decide)
        (headCond (str "　をして") rfl (by decide) (by decide))
    cases t with
    | nil =>
      show countOcc terminalPhrase (_ ++ renderSteps []) = 0
      rw [show renderSteps [] = [] from rfl, List.append_nil]
      exact h2
    | cons i2 t2 =>
      exact countOcc_append_of_head h2 (ih hsl.2)
        (headCond _ (head?_renderSteps_cons i2 t2) (by decide) (by decide))



/-- C5 counterexample: the valid input `完成！` parses (its base is the
phrase itself), and the rendered output contains the terminal phrase
twice, not exactly once. -/
theorem terminal_phrase_not_unique :
    parse (str "完成！") = some ([], ⟨str "完成！", []⟩) ∧
      countOcc terminalPhrase (render ⟨str "完成！", []⟩) = 2 := ⟨rfl, by decide⟩

/-- C5 (amended): for every recipe (in particular every successful parse
result) the rendered output ends with the terminal phrase; and when no
stored text slice itself contains the phrase, the phrase occurs exactly
once in the output. -/
theorem render_terminal_phrase (r : Recipe) :
    terminalPhrase <:+ render r ∧
    (recipeSlices (fun t => countOcc terminalPhrase t = 0) r →
      countOcc terminalPhrase (render r) = 1) := by
  obtain ⟨base, l⟩ := r
  constructor
  · refine ⟨(base ++ (if (l : List Instruction).isEmpty then [] else str "　に") ++
      renderSteps l) ++ ['\n'], ?_⟩
    show _ = base ++ (if (l : List Instruction).isEmpty then [] else str "　に") ++
      renderSteps l ++ str "\n完成！"
    simp only [List.append_assoc]
    rfl
  · intro h
    cases l with
    | nil =>
      show countOcc terminalPhrase
        (base ++ [] ++ renderSteps [] ++ str "\n完成！") = 1
      rw [List.append_nil, show renderSteps [] = [] from rfl, List.append_nil]
      have hassoc : base ++ str "\n完成！" =
          (base ++ ['\n']) ++ terminalPhrase := by
        simp only [List.append_assoc]
        rfl
      rw [hassoc, countOcc_append_self]
      rw [countOcc_append_of_head h.1 (by decide)
        (headCond (['\n']) rfl (by decide) (by decide))]
    | cons i t =>
      show countOcc terminalPhrase
        (base ++ str "　に" ++ renderSteps (i :: t) ++ str "\n完成！") = 1
      have hp0 : countOcc terminalPhrase (base ++ str "　に") = 0 :=
        countOcc_append_of_head h.1 (by decide)
          (headCond (str "　に") rfl (by decide) (by decide))
      have hp1 : countOcc terminalPhrase
          ((base ++ str "　に") ++ renderSteps (i :: t)) = 0 :=
        countOcc_append_of_head hp0 (renderSteps_no_phrase _ h.2)
          (headCond _ (head?_renderSteps_cons i t) (by decide) (by decide))
      have hassoc : base ++ str "　に" ++ renderSteps (i :: t) ++ str "\n完成！" =
          ((base ++ str "　に" ++ renderSteps (i :: t)) ++ ['\n']) ++
            terminalPhrase := by
        simp only [List.append_assoc]
        rfl
      rw [hassoc, countOcc_append_self]
      rw [countOcc_append_of_head hp1 (by decide)
        (headCond (['\n']) rfl (by decide) (by decide))]

theorem render_terminal_phrase_witness :
    countOcc terminalPhrase (render ⟨['x'], []⟩) = 1 :=
  (render_terminal_phrase ⟨['x'], []⟩).2 ⟨by decide, trivial⟩


/-! C1: transparency of whitespace and comments -/


/-! C1 machinery: insignificant runs (whitespace with at most one comment). -/

theorem takeWhile_append_mid {p : α → Bool} {c : α} (w z : List α)
    (hc : p c = false) : (w ++ c :: z).takeWhile p = w.takeWhile p := by
  induction w with
  | nil => exact List.takeWhile_cons_of_neg (by simp [hc])
  | cons a w' ih =>
    rw [List.cons_append, List.takeWhile_cons, List.takeWhile_cons]
    by_cases hp : p a
    · rw [if_pos hp, if_pos hp, ih]
    · rw [if_neg hp, if_neg hp]

theorem dropWhile_append_mid {p : α → Bool} {c : α} (w z : List α)
    (hc : p c = false) : (w ++ c :: z).dropWhile p = w.dropWhile p ++ c :: z := by
  induction w with
  | nil =>
    show (c :: z).dropWhile p = [].dropWhile p ++ c :: z
    rw [List.dropWhile_cons_of_neg (by simp [hc])]
    rfl
  | cons a w' ih =>
    rw [List.cons_append, List.dropWhile_cons, List.dropWhile_cons]
    by_cases hp : p a
    · rw [if_pos hp, if_pos hp, ih]
    · rw [if_neg hp, if_neg hp, List.cons_append]

/-- A run of parser whitespace. -/
def wsRun (w : Str) : Prop := ∀ c ∈ w, isNomWs c = true

/-- An insignificant run usable between tokens: whitespace, or whitespace
plus one comment terminated by a newline (CR or LF) and more whitespace. -/
inductive MidRun : Str → Prop
  | ws {w} : wsRun w → MidRun w
  | cmt (wa body wb : Str) : wsRun wa →
      (∀ c ∈ body, List.contains ['\r', '\n'] c = false) →
      wsRun wb →
      (∃ c wb', wb = c :: wb' ∧ List.contains ['\r', '\n'] c = true) →
      MidRun (wa ++ '#' :: (body ++ wb))

/-- An insignificant run usable at the end of input: as `MidRun`, but the
comment may also run to the end of the input. -/
inductive EndRun : Str → Prop
  | ws {w} : wsRun w → EndRun w
  | cmt (wa body wb : Str) : wsRun wa →
      (∀ c ∈ body, List.contains ['\r', '\n'] c = false) →
      wsRun wb →
      (wb = [] ∨ ∃ c wb', wb = c :: wb' ∧ List.contains ['\r', '\n'] c = true) →
      EndRun (wa ++ '#' :: (body ++ wb))

theorem isNomWs_of_crlf {c : Char} (h : List.contains ['\r', '\n'] c = true) :
    isNomWs c = true := by
  simp [List.contains] at h
  rcases h with rfl | rfl <;> rfl

theorem afterWs_wsRun_nil {w : Str} (h : wsRun w) : afterWs w = [] :=
  List.dropWhile_eq_nil_iff.2 (by intro c hc; simp [h c hc])

theorem wsRun_skip {w : Str} (h : wsRun w) : skip w = some ([], ()) := by
  rw [skip_eq, afterWs_wsRun_nil h]
  rfl

theorem afterWs_wsRun_append {w s : Str} (hw : wsRun w) :
    afterWs (w ++ s) = afterWs s :=
  List.dropWhile_append_of_pos (by intro c hc; simp [hw c hc])

/-- Over a `MidRun` followed by a plain token, `skip` consumes exactly the
run. -/
theorem midRun_skip {w Z rest : Str} (hw : MidRun w) (hZ : PlainTok Z) :
    skip (w ++ (Z ++ rest)) = some (Z ++ rest, ()) := by
  cases hw with
  | ws hws => rw [skip_ws_left hws]; exact skip_tok hZ
  | cmt wa body wb hwa hb hwb hnl =>
    obtain ⟨nl, wb', rfl, hcr⟩ := hnl
    obtain ⟨z, Z', rfl⟩ : ∃ z Z', Z = z :: Z' := by
      cases Z with
      | nil => exact absurd rfl hZ.ne
      | cons z Z' => exact ⟨z, Z', rfl⟩
    have hzw : isNomWs z = false := hZ.headNomWs z rfl
    have hshape : (wa ++ '#' :: (body ++ nl :: wb')) ++ ((z :: Z') ++ rest) =
        wa ++ ('#' :: (body ++ nl :: (wb' ++ ((z :: Z') ++ rest)))) := by
      simp [List.append_assoc]
    rw [hshape, skip_ws_left hwa, skip_cons_hash]
    have hdrop : (body ++ nl :: (wb' ++ ((z :: Z') ++ rest))).dropWhile
        (fun c => !(List.contains ['\r', '\n'] c)) =
        nl :: (wb' ++ ((z :: Z') ++ rest)) := by
      rw [dropWhile_append_mid _ _ (by
        show (!(List.contains ['\r', '\n'] nl)) = false
        rw [hcr]
        rfl)]
      rw [List.dropWhile_eq_nil_iff.2 (by
        intro c hc
        show (!(List.contains ['\r', '\n'] c)) = true
        rw [hb c hc]
        rfl)]
      rfl
    rw [hdrop]
    have hafter : afterWs (nl :: (wb' ++ ((z :: Z') ++ rest))) =
        (z :: Z') ++ rest := by
      unfold afterWs
      rw [List.dropWhile_cons_of_pos (by simp [isNomWs_of_crlf hcr])]
      rw [List.dropWhile_append_of_pos (by intro c hc; simp [hwb c (by simp [hc])])]
      rw [List.cons_append]
      exact List.dropWhile_cons_of_neg (by simp [hzw])
    rw [hafter]



theorem plainTok_pred {X : Str} (hX : PlainTok X) :
    ∀ c ∈ X, (!(baseExcl.contains c)) = true := by
  intro c hc
  rw [hX.excl c hc]
  rfl

theorem wsRun_pred {w : Str} (hw : wsRun w) :
    ∀ c ∈ w, (!(baseExcl.contains c)) = true ∨ (!(baseExcl.contains c)) = false := by
  intro c _
  cases (!(baseExcl.contains c)) <;> simp

theorem trim_tok_wsRun {X wt : Str} (hX : PlainTok X) (h : ∀ c ∈ wt, isNomWs c = true) :
    trim (X ++ wt) = X := by
  rw [trim_ws_right (by intro c hc; exact isUniWs_of_isNomWs (h c hc))]
  exact trim_eq_self hX.headNw hX.lastNw

/-- Decomposition in `preceded(skip, is_not(baseExcl))` style of a plain token
followed by a `MidRun` and then `'>'`. -/
theorem isNot_tok_midrun {X w : Str} (tail : Str) (hX : PlainTok X) (hw : MidRun w) :
    ∃ wt r2,
      isNot baseExcl (X ++ (w ++ '>' :: tail)) = some (r2 ++ '>' :: tail, X ++ wt) ∧
      trim (X ++ wt) = X ∧
      skip (r2 ++ '>' :: tail) = some ('>' :: tail, ()) := by
  cases hw with
  | ws hws =>
    refine ⟨w.takeWhile (fun c => !(baseExcl.contains c)),
      w.dropWhile (fun c => !(baseExcl.contains c)), ?_, ?_, ?_⟩
    · refine isNot_eq_some.2 ⟨?_, ?_, by simp [hX.ne]⟩
      · rw [List.takeWhile_append_of_pos (plainTok_pred hX),
          takeWhile_append_mid _ _ (by decide)]
      · rw [List.dropWhile_append_of_pos (plainTok_pred hX),
          dropWhile_append_mid _ _ (by decide)]
    · exact trim_tok_wsRun hX (fun c hc => hws c (List.takeWhile_subset _ hc))
    · rw [skip_ws_left (fun c hc => hws c (List.dropWhile_subset _ hc))]
      exact skip_cons_id (by decide) (by decide)
  | cmt wa body wb hwa hb hwb hnl =>
    obtain ⟨nl, wb', rfl, hcr⟩ := hnl
    refine ⟨wa.takeWhile (fun c => !(baseExcl.contains c)),
      wa.dropWhile (fun c => !(baseExcl.contains c)) ++ '#' :: (body ++ nl :: wb'),
      ?_, ?_, ?_⟩
    · have hshape : X ++ ((wa ++ '#' :: (body ++ nl :: wb')) ++ '>' :: tail) =
          X ++ (wa ++ '#' :: ((body ++ nl :: wb') ++ '>' :: tail)) := by
        simp [List.append_assoc]
      rw [hshape]
      refine isNot_eq_some.2 ⟨?_, ?_, by simp [hX.ne]⟩
      · rw [List.takeWhile_append_of_pos (plainTok_pred hX),
          takeWhile_append_mid _ _ (by decide)]
      · rw [List.dropWhile_append_of_pos (plainTok_pred hX),
          dropWhile_append_mid _ _ (by decide)]
        simp [List.append_assoc]
    · exact trim_tok_wsRun hX (fun c hc => hwa c (List.takeWhile_subset _ hc))
    · have hshape2 : (wa.dropWhile (fun c => !(baseExcl.contains c)) ++
          '#' :: (body ++ nl :: wb')) ++ '>' :: tail =
          wa.dropWhile (fun c => !(baseExcl.contains c)) ++
            ('#' :: (body ++ nl :: (wb' ++ '>' :: tail))) := by
        simp [List.append_assoc]
      rw [hshape2,
        skip_ws_left (fun c hc => hwa c (List.dropWhile_subset _ hc)),
        skip_cons_hash]
      have hdrop : (body ++ nl :: (wb' ++ '>' :: tail)).dropWhile
          (fun c => !(List.contains ['\r', '\n'] c)) =
          nl :: (wb' ++ '>' :: tail) := by
        rw [dropWhile_append_mid _ _ (by
          show (!(List.contains ['\r', '\n'] nl)) = false
          rw [hcr]
          rfl)]
        rw [List.dropWhile_eq_nil_iff.2 (by
          intro c hc
          show (!(List.contains ['\r', '\n'] c)) = true
          rw [hb c hc]
          rfl)]
        rfl
      rw [hdrop]
      have hafter : afterWs (nl :: (wb' ++ '>' :: tail)) = '>' :: tail := by
        unfold afterWs
        rw [List.dropWhile_cons_of_pos (by simp [isNomWs_of_crlf hcr])]
        rw [List.dropWhile_append_of_pos (by
          intro c hc
          simp [hwb c (by simp [hc])])]
        exact List.dropWhile_cons_of_neg (by decide)
      rw [hafter]

/-- As above, for a plain token followed by an `EndRun` at the end of the
input. -/
theorem isNot_tok_endrun {Y w4 : Str} (hY : PlainTok Y) (hw : EndRun w4) :
    ∃ wt r4,
      isNot baseExcl (Y ++ w4) = some (r4, Y ++ wt) ∧
      trim (Y ++ wt) = Y ∧
      skip r4 = some ([], ()) := by
  cases hw with
  | ws hws =>
    refine ⟨w4.takeWhile (fun c => !(baseExcl.contains c)),
      w4.dropWhile (fun c => !(baseExcl.contains c)), ?_, ?_, ?_⟩
    · refine isNot_eq_some.2 ⟨?_, ?_, by simp [hY.ne]⟩
      · rw [List.takeWhile_append_of_pos (plainTok_pred hY)]
      · rw [List.dropWhile_append_of_pos (plainTok_pred hY)]
    · exact trim_tok_wsRun hY (fun c hc => hws c (List.takeWhile_subset _ hc))
    · exact wsRun_skip (fun c hc => hws c (List.dropWhile_subset _ hc))
  | cmt wa body wb hwa hb hwb hwbe =>
    refine ⟨wa.takeWhile (fun c => !(baseExcl.contains c)),
      wa.dropWhile (fun c => !(baseExcl.contains c)) ++ '#' :: (body ++ wb),
      ?_, ?_, ?_⟩
    · refine isNot_eq_some.2 ⟨?_, ?_, by simp [hY.ne]⟩
      · rw [List.takeWhile_append_of_pos (plainTok_pred hY),
          takeWhile_append_mid _ _ (by decide)]
      · rw [List.dropWhile_append_of_pos (plainTok_pred hY),
          dropWhile_append_mid _ _ (by decide)]
    · exact trim_tok_wsRun hY (fun c hc => hwa c (List.takeWhile_subset _ hc))
    · rw [skip_ws_left (fun c hc => hwa c (List.dropWhile_subset _ hc)),
        skip_cons_hash]
      have hdrop : (body ++ wb).dropWhile
          (fun c => !(List.contains ['\r', '\n'] c)) = wb.dropWhile
          (fun c => !(List.contains ['\r', '\n'] c)) :=
        List.dropWhile_append_of_pos (by
          intro c hc
          show (!(List.contains ['\r', '\n'] c)) = true
          rw [hb c hc]
          rfl)
      rw [hdrop]
      rcases hwbe with rfl | ⟨nl, wb', rfl, hcr⟩
      · rfl
      · rw [List.dropWhile_cons_of_neg (by
          show ¬(!(List.contains ['\r', '\n'] nl)) = true
          rw [hcr]
          exact Bool.noConfusion)]
        rw [afterWs_wsRun_nil hwb]



/-- C1 (amended), transparency family: around the tokens of `X > Y`, any
insignificant runs — whitespace together with at most one comment per token
boundary (newline-terminated except at end of input) — may be inserted or
removed without changing the parse result. -/
theorem comment_whitespace_transparency :
    ∀ w1 w2 w3 w4 X Y, MidRun w1 → MidRun w2 → MidRun w3 → EndRun w4 →
      PlainTok X → PlainTok Y →
      (∀ c, Y.head? = some c → c ≠ '?' ∧ c ≠ '+') →
      parse (w1 ++ (X ++ (w2 ++ '>' :: (w3 ++ (Y ++ w4))))) =
        some ([], ⟨X, [.process Y]⟩) := by
  intro w1 w2 w3 w4 X Y hw1 hw2 hw3 hw4 hX hY hYq
  obtain ⟨y, Y', rfl⟩ : ∃ y Y', Y = y :: Y' := by
    cases Y with
    | nil => exact absurd rfl hY.ne
    | cons y Y' => exact ⟨y, Y', rfl⟩
  have hyq : y ≠ '?' := (hYq y rfl).1
  have hyp : y ≠ '+' := (hYq y rfl).2
  obtain ⟨wt4, r4, hF1, hF2, hF3⟩ := isNot_tok_endrun hY hw4
  obtain ⟨tail1, htail1⟩ : ∃ t, t = w3 ++ ((y :: Y') ++ w4) := ⟨_, rfl⟩
  obtain ⟨wt2, r2, hG1, hG2, hG3⟩ :=
    isNot_tok_midrun tail1 hX hw2
  have hskip3 : skip tail1 = some ((y :: Y') ++ w4, ()) := by
    rw [htail1]
    exact midRun_skip hw3 hY
  have hchrY : ∀ c : Char, c ≠ y → chr c ((y :: Y') ++ w4) = none := by
    intro c hc
    rw [List.cons_append]
    exact chr_cons_ne _ (fun h => hc h.symm)
  have hadd : ∀ g, addBranch g tail1 = none := by
    intro g
    unfold addBranch
    rw [pmap_eq_none]
    unfold pairP
    have h1 : popt (precededP skip (chr '?')) tail1 = some (tail1, none) := by
      unfold popt precededP
      rw [hskip3, Option.some_bind, hchrY '?' (fun h => hyq h.symm)]
    rw [h1, Option.some_bind]
    have h2 : precededP (precededP skip (chr '+'))
        (alt2
          (delimitedP (precededP skip (chr '(')) (recipeF g)
            (precededP skip (chr ')')))
          (pmap (fun (t : Str) => Recipe.mk (trim t) [])
            (precededP skip (isNot inlineExcl)))) tail1 = none := by
      unfold precededP
      rw [hskip3, Option.some_bind, hchrY '+' (fun h => hyp h.symm)]
      rfl
    rw [h2]
    rfl
  have hproc : processBranch tail1 = some (r4, .process (y :: Y')) := by
    unfold processBranch
    rw [pmap_eq_some]
    refine ⟨(y :: Y') ++ wt4, ?_, ?_⟩
    · unfold precededP
      rw [hskip3, Option.some_bind]
      exact hF1
    · rw [hF2]
  have hins : ∀ g, instructionF (g + 1) tail1 =
      some (r4, .process (y :: Y')) := by
    intro g
    rw [instructionF_succ]
    unfold alt2
    rw [hadd g, hproc]
  have hsep4 : sepGt r4 = none := by
    unfold sepGt precededP
    rw [hF3, Option.some_bind]
    rfl
  have hlist : ∀ g, instrListF (g + 2) tail1 =
      some (r4, [.process (y :: Y')]) := by
    intro g
    rw [show instrListF (g + 2) tail1 =
      (match instructionF (g + 1) tail1 with
        | none => none
        | some (s1, i) => listLoopF (g + 1) s1 [i]) from rfl]
    rw [hins g]
    show listLoopF (g + 1) r4 [.process (y :: Y')] = _
    rw [show listLoopF (g + 1) r4 [.process (y :: Y')] =
      (match sepGt r4 with
        | none => some (r4, [Instruction.process (y :: Y')])
        | some (i1, _) =>
          if i1.length = r4.length then none
          else
            match instructionF g i1 with
            | none => some (r4, [Instruction.process (y :: Y')])
            | some (i2, o) =>
              listLoopF g i2 ([Instruction.process (y :: Y')] ++ [o]))
      from rfl]
    rw [hsep4]
  have hrec : ∀ g, recipeF (g + 3) (X ++ (w2 ++ '>' :: tail1)) =
      some (r4, ⟨X, [.process (y :: Y')]⟩) := by
    intro g
    rw [show recipeF (g + 3) (X ++ (w2 ++ '>' :: tail1)) = pmap
      (fun (p : Str × Option (List Instruction)) =>
        Recipe.mk (trim p.1) (p.2.getD []))
      (pairP (precededP skip (isNot baseExcl))
        (popt (precededP sepGt (instrListF (g + 2)))))
      (X ++ (w2 ++ '>' :: tail1)) from rfl]
    rw [pmap_eq_some]
    refine ⟨(X ++ wt2, some [.process (y :: Y')]), ?_, ?_⟩
    · rw [pairP_eq_some]
      refine ⟨r2 ++ '>' :: tail1, ?_, ?_⟩
      · unfold precededP
        rw [skip_tok hX, Option.some_bind]
        exact hG1
      · rw [popt_eq_some]
        refine Or.inr ⟨[.process (y :: Y')], ?_, rfl⟩
        rw [precededP_eq_some]
        refine ⟨tail1, '>', ?_, hlist g⟩
        unfold sepGt precededP
        rw [hG3, Option.some_bind]
        exact chr_cons_self '>' tail1
    · show Recipe.mk X [.process (y :: Y')] =
        Recipe.mk (trim (X ++ wt2)) [.process (y :: Y')]
      rw [hG2]
  have hskip1 : skip (w1 ++ (X ++ (w2 ++ '>' :: tail1))) =
      some (X ++ (w2 ++ '>' :: tail1), ()) := midRun_skip hw1 hX
  rw [htail1] at hskip1 hrec
  obtain ⟨m, hm⟩ : ∃ m,
      fuelFor (w1 ++ (X ++ (w2 ++ '>' :: (w3 ++ ((y :: Y') ++ w4))))) = m + 3 :=
    ⟨4 * (w1 ++ (X ++ (w2 ++ '>' :: (w3 ++ ((y :: Y') ++ w4))))).length + 5,
      by unfold fuelFor; omega⟩
  unfold parse terminatedP delimitedP
  rw [hskip1, Option.some_bind, hm, hrec m, Option.some_bind, hF3,
    Option.map_some', Option.some_bind]
  rfl

theorem comment_whitespace_transparency_witness :
    parse (str " x #c\n> y #end") = some ([], ⟨['x'], [.process ['y']]⟩) :=
  comment_whitespace_transparency (str " ") (str " #c\n") (str " ")
    (str " #end") (str "x") (str "y")
    (.ws (by unfold wsRun; decide))
    (.cmt [' '] ['c'] ['\n'] (by unfold wsRun; decide) (by decide)
      (by unfold wsRun; decide) ⟨'\n', [], rfl, by decide⟩)
    (.ws (by unfold wsRun; decide))
    (.cmt [' '] (str "end") [] (by unfold wsRun; decide) (by decide)
      (by unfold wsRun; decide) (Or.inl rfl))
    ⟨by decide, by decide, by decide, by decide⟩
    ⟨by decide, by decide, by decide, by decide⟩
    (by decide)

/-- C1 counterexample: inserting the whitespace-and-comments run
`" #a\n#b"` at the final token boundary of the accepted input `"aaa"`
makes the parse fail — `skip` accepts at most one comment per boundary, so
insignificant content is not fully transparent. -/
theorem two_comments_not_transparent :
    parse (str "aaa") = some ([], ⟨str "aaa", []⟩) ∧
      parse (str "aaa" ++ str " #a\n#b") = none := ⟨rfl, rfl⟩


end Recipio
